import Mathlib

/-!
# Verification of the `retype` typing-trainer core

A shallow embedding of the typing-session engine of the `retype` repository
(`src/calculations.rs`, `src/timer.rs`, `src/app.rs`, `src/keycheck.rs`),
together with proofs settling the frozen claims about it.

Modelling conventions:

* A Rust `String` is modelled as `List Char` (its sequence of Unicode code
  points).  Rust's `str::len` counts UTF-8 **bytes**, while `str::chars().nth`
  walks **code points**; the source mixes the two freely.  The embedding keeps
  this distinction: `byteLen` models `.len()` (sum of the UTF-8 sizes of the
  characters) and `List.get?` models `.chars().nth(_)`.  Byte-indexed slicing
  (`s[0..i]`, `s[i..]`) is modelled by `byteTake` / `byteDrop`; on a non
  character boundary the Rust code would panic while the model truncates to
  the preceding boundary (every slice performed by the program cuts at an
  index produced by `rfind(' ')`, which is always a boundary).
* Fallible Rust paths — `unwrap()` panics, `?`-propagated errors, `exit(0)`,
  and out-of-range slice panics — are all modelled by `Option`, with `none`
  meaning "this call does not return normally".
* Wall-clock instants (`SystemTime`) are modelled as rational numbers of
  seconds since the UNIX epoch; `duration_since(UNIX_EPOCH)` fails exactly
  when the instant is negative, as in the source.  `f64` arithmetic on times
  is modelled exactly over `ℚ`; `f64::ceil` of `len / width` is modelled by
  exact ceiling division, which agrees with the double computation for all
  realistic lengths and widths.  Rust `usize` subtraction is modelled by
  truncated `Nat` subtraction.
* Rendering calls (`pancurses`), the color table and the history CSV sink are
  external collaborators; the history emission is modelled as a `Bool` flag
  on the state-update result ("an emission happened in this call").
-/

/-- UTF-8 byte length of a string, modelling Rust `str::len`. -/
def byteLen (s : List Char) : Nat :=
  (s.map Char.utf8Size).sum

/-- Byte-indexed prefix, modelling the Rust slice `s[0..n]` (truncating to the
preceding character boundary where the source would panic). -/
def byteTake (n : Nat) : List Char → List Char
  | [] => []
  | c :: cs => if c.utf8Size ≤ n then c :: byteTake (n - c.utf8Size) cs else []

/-- Byte-indexed suffix, modelling the Rust slice `s[n..]` (keeping the whole
character where the source would panic on a non-boundary). -/
def byteDrop (n : Nat) : List Char → List Char
  | [] => []
  | c :: cs => if c.utf8Size ≤ n ∧ 0 < n then byteDrop (n - c.utf8Size) cs else c :: cs

/-- Byte index of the last `' '` of a string, modelling `str::rfind(' ')`. -/
def rfindSpaceByte : List Char → Option Nat
  | [] => none
  | c :: cs =>
    match rfindSpaceByte cs with
    | some i => some (c.utf8Size + i)
    | none => if c = ' ' then some 0 else none

/-! ## `src/calculations.rs` -/

/-- Loop of `first_index_at_which_strings_differ`: starting at position `i`
with `fuel` iterations left, return the first position whose characters (as
`chars().nth`) differ, else the position after the last iteration. -/
def firstDiffGo (s1 s2 : List Char) : Nat → Nat → Nat
  | i, 0 => i
  | i, fuel + 1 => if s1.get? i ≠ s2.get? i then i else firstDiffGo s1 s2 (i + 1) fuel

/-- `calculations::first_index_at_which_strings_differ`.  The loop bound is
`min (s1.len()) (s2.len())` in **bytes**, while each position is compared via
`chars().nth(index)` — a **code-point** index (`none = none` when a string is
exhausted, hence "equal").  This mixed-unit behaviour is the source's. -/
def first_index_at_which_strings_differ (s1 s2 : List Char) : Nat :=
  firstDiffGo s1 s2 0 (min (byteLen s1) (byteLen s2))

/-- `calculations::number_of_lines_to_fit_text_in_window`:
`ceil(len / width)` with `len` in bytes (exact model of the `f64` ceiling for
realistic magnitudes).  `width = 0` never arises in the claims. -/
def number_of_lines_to_fit_text_in_window (s : List Char) (width : Nat) : Nat :=
  (byteLen s + width - 1) / width

/-- Loop body of `calculations::get_space_count_after_ith_word`: while
`index < text.len()` (bytes) and `text.chars().nth(index).unwrap() == ' '`,
advance.  `none` models the `unwrap()` panic when `nth` returns `None` even
though `index` is below the byte length (possible on multi-byte text). -/
def gscGo (text : List Char) : Nat → Nat → Option Nat
  | _, 0 => some 0
  | i, fuel + 1 =>
    if i < byteLen text then
      match text.get? i with
      | none => none
      | some c => if c = ' ' then (gscGo text (i + 1) fuel).map (· + 1) else some 0
    else some 0

/-- `calculations::get_space_count_after_ith_word`.  The fuel `byteLen text`
dominates the remaining iteration count `byteLen text - index`, so the fuelled
loop coincides with the source's `while`. -/
def get_space_count_after_ith_word (index : Nat) (text : List Char) : Option Nat :=
  gscGo text index (byteLen text)

/-- One iteration of the `word_wrap` loop at line number `line`.  `none`
models the two `unwrap()` panics (a `chars().nth` miss, and `rfind(' ')`
finding no space before the wrap boundary). -/
def wrapStep (width line : Nat) (text : List Char) : Option (List Char) :=
  if byteLen text ≤ line * width then some text
  else
    let index := line * width - 1
    match text.get? index with
    | none => none
    | some c =>
      if c = ' ' then some text
      else
        match rfindSpaceByte (byteTake index text) with
        | none => none
        | some idx =>
          let space_count := line * width - idx
          some (byteTake idx text ++ List.replicate space_count ' ' ++ byteDrop (idx + 1) text)

/-- The `word_wrap` loop over lines `line, line+1, …` for `fuel` iterations. -/
def wrapGo (width : Nat) : Nat → Nat → List Char → Option (List Char)
  | _, 0, text => some text
  | line, fuel + 1, text =>
    match wrapStep width line text with
    | none => none
    | some t => wrapGo width (line + 1) fuel t

/-- `calculations::word_wrap`.  Faithfully, the iteration range
`1..=(number_of_lines + 1)` is computed **once** from the initial text, even
though the loop body grows the text (the spec warns about exactly this). -/
def word_wrap (text : List Char) (width : Nat) : Option (List Char) :=
  wrapGo width 1 (number_of_lines_to_fit_text_in_window text width + 1) text

/-! ## `src/timer.rs` -/

/-- `SystemTime::duration_since(UNIX_EPOCH)` on an instant modelled as
rational seconds since the epoch: fails exactly when the instant precedes the
epoch. -/
def duration_since_epoch (t : ℚ) : Except Unit ℚ :=
  if t < 0 then .error () else .ok t

/-- `timer::get_elapsed_minutes_since_first_keypress`: both instants are
reduced to seconds since the epoch (each read can fail only if the instant is
pre-epoch), then subtracted and divided by 60.  No sign check is performed on
the difference. -/
def get_elapsed_minutes_since_first_keypress (now start_time : ℚ) : Except Unit ℚ := do
  let n ← duration_since_epoch now
  let s ← duration_since_epoch start_time
  .ok ((n - s) / 60)

/-- `calculations::speed_in_wpm` with the clock reads inlined over `ℚ` (the
claims never inspect the numeric value, only that it is cached). -/
def speed_in_wpm (text : List (List Char)) (now start_time : ℚ) : ℚ :=
  (text.length : ℚ) / ((now - start_time) / 60)

/-- `calculations::accuracy`. -/
def accuracy (total_chars_typed wrongly_typed : Nat) : ℚ :=
  (((total_chars_typed - wrongly_typed : Nat) : ℚ) / (total_chars_typed : ℚ)) * 100

/-- The number of consecutive `' '` characters of `text` starting at
code-point position `i` — the specification-side description of "how many
spaces follow the current position in the wrapped reference text". -/
def countSpacesFrom (i : Nat) (text : List Char) : Nat :=
  ((text.drop i).takeWhile (· = ' ')).length

example : first_index_at_which_strings_differ "abc".data "abd".data = 2 := by decide
example : first_index_at_which_strings_differ "abc".data "abc".data = 3 := by decide
example : first_index_at_which_strings_differ ['é', 'é'] ['é', 'é'] = 4 := by decide
example : get_space_count_after_ith_word 1 "a   b".data = some 3 := by decide
example : word_wrap "abcdefghij".data 5 = none := by decide
example : word_wrap "aa bb".data 80 = some "aa bb".data := by decide

/-! ## `src/keycheck.rs` -/

/-- The `pancurses::Input` events the engine distinguishes. -/
inductive Input where
  | Character (c : Char)
  | KeyBackspace
  | KeyEnter
  | KeyExit
  | KeyResize
  | KeyLeft
  | KeyRight
deriving DecidableEq, Repr

/-- `keycheck::is_escape` (pancurses reports ESC as `KeyExit`). -/
def is_escape (k : Input) : Bool := k = Input.KeyExit

/-- `keycheck::is_ctrl_c` (`Character('\x03')`). -/
def is_ctrl_c (k : Input) : Bool := k = Input.Character (Char.ofNat 3)

/-- `keycheck::is_valid_initial_key`: any `Character` event. -/
def is_valid_initial_key (k : Input) : Bool :=
  match k with
  | .Character _ => true
  | _ => false

/-- `keycheck::is_enter`. -/
def is_enter (k : Input) : Bool := k = Input.KeyEnter

/-- `keycheck::is_tab` (`Character('\t')`). -/
def is_tab (k : Input) : Bool := k = Input.Character (Char.ofNat 9)

/-- `keycheck::is_resize`. -/
def is_resize (k : Input) : Bool := k = Input.KeyResize

/-- `keycheck::is_backspace` (`KeyBackspace` or `Character('\x7f')`). -/
def is_backspace (k : Input) : Bool :=
  match k with
  | .KeyBackspace => true
  | .Character c => c = Char.ofNat 127
  | _ => false

/-- `keycheck::is_ctrl_backspace` (`Character('\x17')`). -/
def is_ctrl_backspace (k : Input) : Bool := k = Input.Character (Char.ofNat 23)

/-- `keycheck::get_key_mapping`: a `Character` maps to its one-character
string; the debug formatting of the remaining variants is never reached
through `appendkey` (guarded by `is_valid_initial_key`), so it is modelled by
the empty string. -/
def get_key_mapping (k : Input) : List Char :=
  match k with
  | .Character c => [c]
  | _ => []

/-! ## `src/app.rs` — session state

The `color: HashMap<Color, ColorPair>` field drives terminal attributes only
and is omitted.  `start_time`, `end_time` are rational seconds since the UNIX
epoch (assumed non-negative wherever the source would otherwise propagate a
`SystemTimeError`; that error path is verified separately on `timer.rs`). -/

structure App where
  text : List Char
  text_id : List Char
  tokens : List (List Char)
  text_backup : List Char
  current_word : List Char
  current_string : List Char
  first_key_pressed : Bool
  key_strokes : List (ℚ × Input)
  mistyped_keys : List Nat
  start_time : ℚ
  end_time : ℚ
  token_index : Nat
  mode : Nat
  window_height : Int
  window_width : Int
  number_of_lines_to_print_text : Int
  current_word_limit : Nat
  test_complete : Bool
  current_speed_wpm : ℚ
  accuracy : ℚ
  time_taken : ℚ
  total_chars_typed : Nat
deriving DecidableEq, Repr

/-- `App::reset_test` (the cursor call is rendering). -/
def reset_test (now : ℚ) (a : App) : App :=
  { a with mode := 0, current_word := [], current_string := [],
           first_key_pressed := false, key_strokes := [], mistyped_keys := [],
           start_time := now, token_index := 0, current_speed_wpm := 0,
           total_chars_typed := 0, accuracy := 0, time_taken := 0,
           test_complete := false }

/-- `App::appendkey`. -/
def appendkey (a : App) (key : List Char) : App :=
  if byteLen a.current_word < a.current_word_limit then
    { a with current_word := a.current_word ++ key,
             current_string := a.current_string ++ key }
  else a

/-- `App::check_word`.  The space count is taken at byte position
`current_string.len()` of the wrapped text before branching; `none` models
the `get_space_count_after_ith_word` panic and the `tokens[token_index]`
out-of-bounds panic. -/
def check_word (a : App) : Option App :=
  match get_space_count_after_ith_word (byteLen a.current_string) a.text with
  | none => none
  | some spc =>
    match a.tokens.get? a.token_index with
    | none => none
    | some tok =>
      if a.current_word = tok then
        some { a with token_index := a.token_index + 1,
                      current_word := [],
                      current_string := a.current_string ++ List.replicate spc ' ' }
      else
        some { a with current_word := a.current_word ++ [' '],
                      current_string := a.current_string ++ [' '] }

/-- `App::erase_word`.  `rfind(" ")` failing is turned into an error by
`ok_or(NoCharFoundError)` and propagated (`none`); the subsequent
`index_word as i32 == -1` test — a leftover of the Python original, where
`rfind` returns `-1` — can then never succeed, so its "single word" branch is
dead code (a natural-number index is never `-1`). -/
def erase_word (a : App) : Option App :=
  if a.current_word = [] then some a
  else
    match rfindSpaceByte a.current_word with
    | none => none
    | some index_word =>
      if (index_word : Int) = -1 then
        some { a with current_word := [],
                      current_string :=
                        byteTake (byteLen a.current_string - byteLen a.current_word)
                          a.current_string }
      else
        let diff := byteLen a.current_word - index_word
        some { a with current_word := byteTake (byteLen a.current_word - diff) a.current_word,
                      current_string := byteTake (byteLen a.current_string - diff) a.current_string }

/-- `App::erase_key` (`String::pop` removes the last character). -/
def erase_key (a : App) : App :=
  if a.current_word = [] then a
  else { a with current_word := a.current_word.dropLast,
                current_string := a.current_string.dropLast }

/-- The timestamp-to-delta conversion performed at the end of `App::test_end`:
element 0 becomes 0 and element `i` becomes `t[i] - t[i-1]` (the reversed
index loop reads each predecessor before it is overwritten).  On an empty log
the source loop underflows `len - 1` and panics; no claim evaluates that
case, and the theorems about completion require a non-empty log. -/
def deltaEncode : List (ℚ × Input) → List (ℚ × Input)
  | [] => []
  | x :: xs => (0, x.2) :: List.zipWith (fun cur prev => (cur.1 - prev.1, cur.2)) xs (x :: xs)

/-- `App::test_end`.  The returned `Bool` is the history emission ("one
finalize event was handed to the history sink during this call"); all
`mvaddstr`/`attrset` calls are rendering.  Stats are computed and the key log
delta-encoded only in test mode (`mode = 0`); the per-run buffers are cleared
unconditionally; the emission happens exactly when `test_complete` was still
false, and sets it. -/
def test_end (now : ℚ) (a : App) : App × Bool :=
  let a :=
    if a.mode = 0 then
      let wpm := speed_in_wpm a.tokens now a.start_time
      let wrongly_typed_chars := a.total_chars_typed - byteLen a.text_backup
      let acc := accuracy a.total_chars_typed wrongly_typed_chars
      let tt := (now - a.start_time) / 60
      { a with current_speed_wpm := wpm, accuracy := acc, time_taken := tt,
               mode := 1, key_strokes := deltaEncode a.key_strokes }
    else a
  let a := { a with first_key_pressed := false, end_time := now,
                    current_string := [], current_word := [], token_index := 0,
                    start_time := now }
  if a.test_complete = false then ({ a with test_complete := true }, true)
  else (a, false)

/-- `App::update_state`.  The leading `none` models the display slice
`&self.text[0..self.current_string.len()]` panicking when the typed string
has outgrown the wrapped text; then the diff index is computed, a mistyped
position recorded under the source's guard, and `test_end` triggered exactly
when the diff index equals the wrapped length. -/
def update_state (now : ℚ) (a : App) : Option (App × Bool) :=
  if byteLen a.text < byteLen a.current_string then none
  else
    let index := first_index_at_which_strings_differ a.current_string a.text
    let a2 :=
      if index < byteLen a.current_string ∧ byteLen a.current_string ≤ byteLen a.text then
        { a with mistyped_keys := a.mistyped_keys ++ [byteLen a.current_string - 1] }
      else a
    -- recording a mistyped position does not change `text`, so the source's
    -- completion test `index == self.text.len()` reads the same length
    if index = byteLen a.text then some (test_end now a2) else some (a2, false)

/-- `App::key_printer`.  Branches in source order.  `none` models: `exit(0)`
on Ctrl-C; the resize path (which re-wraps against the live window's new
dimensions, an input outside the model); the propagated `erase_word` error;
and the panics inside `check_word`/`update_state`. -/
def key_printer (now : ℚ) (a : App) (k : Input) : Option (App × Bool) :=
  if is_escape k then update_state now (reset_test now a)
  else if is_ctrl_c k then none
  else if is_resize k then none
  else if is_backspace k then update_state now (erase_key a)
  else if is_ctrl_backspace k then
    match erase_word a with
    | none => none
    | some a' => update_state now a'
  else if k = Input.Character ' ' ∧ byteLen a.current_word < a.current_word_limit then
    let a := { a with total_chars_typed := a.total_chars_typed + 1 }
    if a.current_word = [] then update_state now a
    else
      match check_word a with
      | none => none
      | some a' => update_state now a'
  else if is_valid_initial_key k then
    let a := appendkey a (get_key_mapping k)
    update_state now { a with total_chars_typed := a.total_chars_typed + 1 }
  else update_state now a

/-- `App::typing_mode`: start the timer on the first valid key, drop input
until then, record every subsequent key with its wall-clock instant, and feed
it to `key_printer`.  The resize branch consults the live window and is not
modelled (`none`); `print_realtime_wpm` is rendering. -/
def typing_mode (now : ℚ) (a : App) (k : Input) : Option (App × Bool) :=
  let a :=
    if a.first_key_pressed = false ∧ is_valid_initial_key k then
      { a with start_time := now, first_key_pressed := true }
    else a
  if is_resize k then none
  else if a.first_key_pressed = false then some (a, false)
  else
    let a := { a with key_strokes := a.key_strokes ++ [(now, k)] }
    key_printer now a k

/-- A live typing session: the events of `App::run` in test mode, one
`typing_mode` transition per arriving `(instant, key)` pair. -/
def run_typing : List (ℚ × Input) → App → Option App
  | [], a => some a
  | (t, k) :: rest, a =>
    match typing_mode t a k with
    | none => none
    | some (a', _) => run_typing rest a'

/-- `App::replay`: each logged event is fed back through `key_printer` (the
sleeps only schedule the calls; `t` is the wall clock at the moment the event
is re-fed).  Returns the final state and the number of history emissions that
occurred along the way. -/
def replay : List (ℚ × Input) → App → Option (App × Nat)
  | [], a => some (a, 0)
  | (t, k) :: rest, a =>
    match key_printer t a k with
    | none => none
    | some (a', e) =>
      match replay rest a' with
      | none => none
      | some (a'', n) => some (a'', (if e then 1 else 0) + n)

/-! ## Basic facts about the byte-length model -/

theorem byteLen_nil : byteLen [] = 0 := rfl

theorem byteLen_cons (c : Char) (l : List Char) :
    byteLen (c :: l) = c.utf8Size + byteLen l := by
  simp [byteLen]

theorem byteLen_append (l1 l2 : List Char) :
    byteLen (l1 ++ l2) = byteLen l1 + byteLen l2 := by
  simp [byteLen]

theorem length_le_byteLen (l : List Char) : l.length ≤ byteLen l := by
  induction l with
  | nil => simp [byteLen]
  | cons c cs ih =>
    have := Char.utf8Size_pos c
    simp only [byteLen_cons, List.length_cons]
    omega

theorem byteTake_byteLen_append (u w : List Char) :
    byteTake (byteLen u) (u ++ w) = u := by
  induction u with
  | nil =>
    cases w with
    | nil => rfl
    | cons c cs =>
      have := Char.utf8Size_pos c
      simp [byteTake, byteLen]
      omega
  | cons c cs ih =>
    simp [byteTake, byteLen_cons, Nat.le_add_right, ih]

theorem rfindSpaceByte_eq_none_of_no_space (v : List Char) (hv : ' ' ∉ v) :
    rfindSpaceByte v = none := by
  induction v with
  | nil => rfl
  | cons c cs ih =>
    simp only [List.mem_cons, not_or] at hv
    have hc : ¬c = ' ' := fun h => hv.1 h.symm
    simp [rfindSpaceByte, ih hv.2, hc]

theorem rfindSpaceByte_last_space (u v : List Char) (hv : ' ' ∉ v) :
    rfindSpaceByte (u ++ ' ' :: v) = some (byteLen u) := by
  induction u with
  | nil => simp [rfindSpaceByte, rfindSpaceByte_eq_none_of_no_space v hv, byteLen]
  | cons c cs ih => simp [rfindSpaceByte, ih, byteLen_cons]

/-! ## Characterizations of the diff loop (claim C2) -/

theorem firstDiffGo_eq_of_all_eq (s1 s2 : List Char) :
    ∀ fuel i, (∀ j, j < fuel → s1.get? (i + j) = s2.get? (i + j)) →
      firstDiffGo s1 s2 i fuel = i + fuel := by
  intro fuel
  induction fuel with
  | zero => intro i _; simp [firstDiffGo]
  | succ n ih =>
    intro i h
    have h0 : s1.get? i = s2.get? i := by simpa using h 0 (Nat.succ_pos n)
    have hrest : ∀ j, j < n → s1.get? (i + 1 + j) = s2.get? (i + 1 + j) := by
      intro j hj
      have := h (j + 1) (by omega)
      simpa [Nat.add_assoc, Nat.add_comm 1 j] using this
    have := ih (i + 1) hrest
    simp only [firstDiffGo, h0, ne_eq, not_true_eq_false, if_false, this]
    omega

theorem firstDiffGo_eq_of_found (s1 s2 : List Char) :
    ∀ fuel i k, k < fuel → s1.get? (i + k) ≠ s2.get? (i + k) →
      (∀ j, j < k → s1.get? (i + j) = s2.get? (i + j)) →
      firstDiffGo s1 s2 i fuel = i + k := by
  intro fuel
  induction fuel with
  | zero => intro i k hk; omega
  | succ n ih
  => intro i k hk hne hall
     cases k with
     | zero =>
       simp only [Nat.add_zero] at hne ⊢
       simp only [firstDiffGo]
       rw [if_pos hne]
     | succ m =>
       have h0 : s1.get? i = s2.get? i := by simpa using hall 0 (Nat.succ_pos m)
       have hne2 : s1.get? (i + 1 + m) ≠ s2.get? (i + 1 + m) := by
         simpa [Nat.add_assoc, Nat.add_comm 1 m] using hne
       have hall2 : ∀ j, j < m → s1.get? (i + 1 + j) = s2.get? (i + 1 + j) := by
         intro j hj
         have := hall (j + 1) (by omega)
         simpa [Nat.add_assoc, Nat.add_comm 1 j] using this
       have := ih (i + 1) m (by omega) hne2 hall2
       simp only [firstDiffGo, h0, ne_eq, not_true_eq_false, if_false, this]
       omega

/-! ## Characterization of the space-count loop (claim C1) -/

theorem gscGo_eq_countSpacesFrom (text : List Char) :
    ∀ fuel i n, byteLen text ≤ i + fuel → gscGo text i fuel = some n →
      n = countSpacesFrom i text := by
  intro fuel
  induction fuel with
  | zero =>
    intro i n hle h
    simp only [gscGo, Option.some.injEq] at h
    have hlen : text.length ≤ i := le_trans (length_le_byteLen text) (by omega)
    simp [countSpacesFrom, List.drop_eq_nil_of_le hlen, ← h]
  | succ m ih =>
    intro i n hle h
    simp only [gscGo] at h
    by_cases hi : i < byteLen text
    · rw [if_pos hi] at h
      cases hg : text.get? i with
      | none => rw [hg] at h; exact absurd h (by simp)
      | some c =>
        rw [hg] at h
        dsimp only at h
        have hlt : i < text.length := (List.get?_eq_some.mp hg).1
        have hdrop : text.drop i = c :: text.drop (i + 1) := by
          rw [List.drop_eq_getElem_cons hlt]
          congr 1
          have := List.get?_eq_getElem? text i
          rw [hg] at this
          have h2 := List.getElem?_eq_getElem hlt
          rw [h2] at this
          exact (Option.some.injEq _ _).mp this.symm
        by_cases hc : c = ' '
        · rw [if_pos hc] at h
          cases hrec : gscGo text (i + 1) m with
          | none => rw [hrec] at h; exact absurd h (by simp)
          | some k =>
            rw [hrec] at h
            simp at h
            have hk := ih (i + 1) k (by omega) hrec
            simp [countSpacesFrom, hdrop, hc, ← h, hk, Nat.add_comm]
        · rw [if_neg hc] at h
          simp only [Option.some.injEq] at h
          simp [countSpacesFrom, hdrop, hc, ← h]
    · rw [if_neg hi] at h
      simp only [Option.some.injEq] at h
      have hlen : text.length ≤ i := le_trans (length_le_byteLen text) (by omega)
      simp [countSpacesFrom, List.drop_eq_nil_of_le hlen, ← h]

theorem get_space_count_eq_countSpacesFrom (index : Nat) (text : List Char) (n : Nat)
    (h : get_space_count_after_ith_word index text = some n) :
    n = countSpacesFrom index text :=
  gscGo_eq_countSpacesFrom text (byteLen text) index n (by omega) h

/-! ## Claim C2 — the diff engine -/

/-- C2 (counterexample): the claim counts the scan bound and the no-mismatch
return value in code points, but the source computes `min` of the **byte**
lengths.  On the two-character string made of two copies of a two-byte
character, `first_mismatch(s, s)` is 4, not the code-point length 2. -/
theorem first_index_self_ne_length :
    first_index_at_which_strings_differ ['é', 'é'] ['é', 'é'] = 4 ∧
    first_index_at_which_strings_differ ['é', 'é'] ['é', 'é'] ≠
      (['é', 'é'] : List Char).length := by
  exact ⟨by decide, by decide⟩

/-- C2 (amended): `first_mismatch` scans code-point positions below
`min(byteLen typed, byteLen reference)` — the byte lengths, not the
code-point lengths — comparing one character per index unit (positions past
the end of a string compare as equal), returns the first differing position,
and returns that byte-length minimum when no mismatch exists below it; in
particular `first_mismatch(s, s) = byteLen s`, and for two strings differing
exactly at code-point position `k` below the bound the result is `k`. -/
theorem first_index_spec (s1 s2 : List Char) :
    ((∀ i, i < min (byteLen s1) (byteLen s2) → s1.get? i = s2.get? i) →
      first_index_at_which_strings_differ s1 s2 = min (byteLen s1) (byteLen s2)) ∧
    (∀ k, k < min (byteLen s1) (byteLen s2) → s1.get? k ≠ s2.get? k →
      (∀ i, i < k → s1.get? i = s2.get? i) →
      first_index_at_which_strings_differ s1 s2 = k) := by
  constructor
  · intro h
    have := firstDiffGo_eq_of_all_eq s1 s2 (min (byteLen s1) (byteLen s2)) 0
      (fun j hj => by simpa using h j hj)
    simpa [first_index_at_which_strings_differ] using this
  · intro k hk hne hall
    have := firstDiffGo_eq_of_found s1 s2 (min (byteLen s1) (byteLen s2)) 0 k hk
      (by simpa using hne) (fun j hj => by simpa using hall j hj)
    simpa [first_index_at_which_strings_differ] using this

/-- Witness for C2 at concrete inputs: equal strings return the byte-length
minimum, and strings differing exactly at position 1 return 1. -/
theorem first_index_spec_witness :
    first_index_at_which_strings_differ "ab".data "ab".data =
      min (byteLen "ab".data) (byteLen "ab".data) ∧
    first_index_at_which_strings_differ "ax".data "ay".data = 1 :=
  ⟨(first_index_spec "ab".data "ab".data).1 (by decide),
   (first_index_spec "ax".data "ay".data).2 1 (by decide) (by decide) (by decide)⟩

/-! ## Claim C6 — elapsed time -/

/-- C6 (counterexample): with the clock moved backward (`now = 0` seconds
after the epoch, `start = 60`), the function returns `Ok(-1)` minutes — a
negative elapsed time as a **success** value — instead of failing with a
timing error as the claim states. -/
theorem get_elapsed_backward_clock_is_ok :
    get_elapsed_minutes_since_first_keypress 0 60 = Except.ok (-1) := by
  norm_num [get_elapsed_minutes_since_first_keypress, duration_since_epoch,
    Bind.bind, Except.bind]

/-- C6 (amended): whenever both instants are at or after the UNIX epoch the
function succeeds with exactly `(now - start) / 60` — including a negative
value when the clock moved backward, never clamped — and it fails only when
one of the two readings precedes the UNIX epoch. -/
theorem get_elapsed_minutes_spec (now start_time : ℚ) :
    (0 ≤ now → 0 ≤ start_time →
      get_elapsed_minutes_since_first_keypress now start_time =
        Except.ok ((now - start_time) / 60)) ∧
    ((now < 0 ∨ start_time < 0) →
      get_elapsed_minutes_since_first_keypress now start_time = Except.error ()) := by
  constructor
  · intro h1 h2
    simp [get_elapsed_minutes_since_first_keypress, duration_since_epoch,
      not_lt.mpr h1, not_lt.mpr h2, Bind.bind, Except.bind]
  · intro h
    by_cases hn : now < 0
    · simp [get_elapsed_minutes_since_first_keypress, duration_since_epoch, hn,
        Bind.bind, Except.bind]
    · have hs : start_time < 0 := h.resolve_left hn
      simp [get_elapsed_minutes_since_first_keypress, duration_since_epoch, hn, hs,
        Bind.bind, Except.bind]

/-- Witness for C6 at concrete instants: a forward clock yields the exact
quotient, a pre-epoch reading yields the error. -/
theorem get_elapsed_minutes_spec_witness :
    get_elapsed_minutes_since_first_keypress 120 60 = Except.ok ((120 - 60) / 60) ∧
    get_elapsed_minutes_since_first_keypress (-5) 60 = Except.error () :=
  ⟨(get_elapsed_minutes_spec 120 60).1 (by norm_num) (by norm_num),
   (get_elapsed_minutes_spec (-5) 60).2 (Or.inl (by norm_num))⟩

/-! ## Claim C7 — wrapping an unbreakable line -/

/-- C7: on a text whose first line-worth contains no space before the wrap
boundary, `word_wrap` hits `rfind(' ').unwrap()` on `None` and panics
(modelled `none`) — the layout failure is a crash, not an error value
surfaced to the caller (even though `app.rs` applies `?` to every
`word_wrap` call, expecting an `AppResult`). -/
theorem word_wrap_no_space_panics :
    word_wrap "abcdefghij".data 5 = none := by
  decide

/-! ## Claim C8 — wrap idempotence -/

/-- Ten two-character words: every line-worth of the text contains a space,
and both wrap applications below succeed. -/
def c8text : List Char := "aa bb cc dd ee ff gg hh ii jj".data

/-- First application of `word_wrap` at width 5 to `c8text` (43 bytes: the
loop bound `ceil(29/5) + 1 = 7` is computed from the original 29-byte text,
so the padded text's lines 8 and 9 are never examined). -/
def c8once : List Char := "aa   bb   cc   dd   ee   ff   gg   hh ii jj".data

/-- Second application: line 8 of the 43-byte once-wrapped text now falls
inside the (recomputed) bound and gets padded, growing the text to 45. -/
def c8twice : List Char := "aa   bb   cc   dd   ee   ff   gg   hh   ii jj".data

/-- C8: `word_wrap` is **not** idempotent at the same width, even on a text
every line-worth of which contains a space (all words have two characters):
the loop bound is computed once from the pre-padding length, later wrap
boundaries stay unprocessed, and a second application pads them. -/
theorem word_wrap_not_idempotent :
    word_wrap c8text 5 = some c8once ∧
    word_wrap c8once 5 = some c8twice ∧
    c8twice ≠ c8once := by
  exact ⟨by decide, by decide, by decide⟩

/-! ## Claim C10 — reset/retry frame -/

/-- C10: `reset_test` clears exactly the per-run progress fields — the two
buffers, the key log, the mistyped positions, the token index, the typed
character count, the three cached metrics, the first-key flag, the mode and
the completion flag — while the ReferenceText-derived fields (wrapped text,
text backup, tokens, text id, word limit) and the window dimensions are left
unchanged (the start-of-run instant is re-seeded with the current clock). -/
theorem reset_test_frame (now : ℚ) (a : App) :
    (reset_test now a).current_word = [] ∧
    (reset_test now a).current_string = [] ∧
    (reset_test now a).key_strokes = [] ∧
    (reset_test now a).mistyped_keys = [] ∧
    (reset_test now a).token_index = 0 ∧
    (reset_test now a).total_chars_typed = 0 ∧
    (reset_test now a).current_speed_wpm = 0 ∧
    (reset_test now a).accuracy = 0 ∧
    (reset_test now a).time_taken = 0 ∧
    (reset_test now a).first_key_pressed = false ∧
    (reset_test now a).mode = 0 ∧
    (reset_test now a).test_complete = false ∧
    (reset_test now a).text = a.text ∧
    (reset_test now a).text_backup = a.text_backup ∧
    (reset_test now a).tokens = a.tokens ∧
    (reset_test now a).text_id = a.text_id ∧
    (reset_test now a).current_word_limit = a.current_word_limit ∧
    (reset_test now a).window_height = a.window_height ∧
    (reset_test now a).window_width = a.window_width := by
  refine ⟨rfl, rfl, rfl, rfl, rfl, rfl, rfl, rfl, rfl, rfl, rfl, rfl, rfl, rfl,
    rfl, rfl, rfl, rfl, rfl⟩

/-! ## Update-state helper lemmas -/

/-- When the wrapped text is not yet fully typed, `update_state` returns
normally, emits nothing, and changes at most `mistyped_keys`. -/
theorem update_state_no_completion (now : ℚ) (a : App)
    (hcs : byteLen a.current_string ≤ byteLen a.text)
    (hnc : first_index_at_which_strings_differ a.current_string a.text ≠ byteLen a.text) :
    update_state now a = some (a, false) ∨
    update_state now a =
      some ({ a with mistyped_keys := a.mistyped_keys ++ [byteLen a.current_string - 1] },
        false) := by
  simp only [update_state]
  rw [if_neg (by omega)]
  by_cases hp : first_index_at_which_strings_differ a.current_string a.text <
      byteLen a.current_string ∧ byteLen a.current_string ≤ byteLen a.text
  · right
    rw [if_pos hp, if_neg hnc]
  · left
    rw [if_neg hp, if_neg hnc]

/-! ## Claim C1 — word acceptance -/

/-- C1: with the expected token in range and the space-count scan returning
normally, `check_word` behaves exactly as claimed: on an exact match it
advances `token_index`, clears `current_word` and extends `current_string` by
precisely the number of consecutive spaces following the current position in
the wrapped text; on a mismatch it appends one trailing space to both buffers
and leaves `token_index` untouched. -/
theorem check_word_spec (a : App) (tok : List Char) (spc : Nat)
    (htok : a.tokens.get? a.token_index = some tok)
    (hspc : get_space_count_after_ith_word (byteLen a.current_string) a.text = some spc) :
    (a.current_word = tok →
      check_word a = some { a with
        token_index := a.token_index + 1,
        current_word := [],
        current_string := a.current_string ++
          List.replicate (countSpacesFrom (byteLen a.current_string) a.text) ' ' }) ∧
    (a.current_word ≠ tok →
      check_word a = some { a with
        current_word := a.current_word ++ [' '],
        current_string := a.current_string ++ [' '] }) := by
  have hs := get_space_count_eq_countSpacesFrom _ _ _ hspc
  have htok2 : a.tokens[a.token_index]? = some tok := by
    rw [← List.get?_eq_getElem?]; exact htok
  constructor
  · intro he
    simp [check_word, hspc, htok2, he, hs]
  · intro hne
    simp [check_word, hspc, htok2, hne]

/-- Reference-text session base used by the concrete witnesses: the state
`App::from_prepared_text` builds for the text `"the cat"` (word limit
`3 + 5`), with zeroed clocks and an 80×40 window. -/
def baseApp : App :=
  { text := "the cat".data
    text_id := "1".data
    tokens := ["the".data, "cat".data]
    text_backup := "the cat".data
    current_word := []
    current_string := []
    first_key_pressed := false
    key_strokes := []
    mistyped_keys := []
    start_time := 0
    end_time := 0
    token_index := 0
    mode := 0
    window_height := 40
    window_width := 80
    number_of_lines_to_print_text := 5
    current_word_limit := 8
    test_complete := false
    current_speed_wpm := 0
    accuracy := 0
    time_taken := 0
    total_chars_typed := 0 }

/-- Session state having typed `the` exactly. -/
def c1hit : App := { baseApp with current_word := "the".data, current_string := "the".data }

/-- Session state having typed the mistyped word `teh`. -/
def c1miss : App := { baseApp with current_word := "teh".data, current_string := "teh".data }

/-- Witness for C1: after typing `the` correctly the match branch fires
(one separating space follows position 3 of the wrapped text), and after
typing `teh` the mismatch branch appends a single space to both buffers. -/
theorem check_word_spec_witness :
    check_word c1hit = some { c1hit with
      token_index := c1hit.token_index + 1,
      current_word := [],
      current_string := c1hit.current_string ++
        List.replicate (countSpacesFrom (byteLen c1hit.current_string) c1hit.text) ' ' } ∧
    check_word c1miss = some { c1miss with
      current_word := c1miss.current_word ++ [' '],
      current_string := c1miss.current_string ++ [' '] } :=
  ⟨(check_word_spec c1hit "the".data 1 (by decide) (by decide)).1 (by decide),
   (check_word_spec c1miss "the".data 1 (by decide) (by decide)).2 (by decide)⟩

/-! ## Claim C9 — word erase -/

/-- Session state with an in-progress word containing no internal space: the
input the claim says is cleared entirely, but on which the source's
`rfind(" ").ok_or(...)?` aborts with `NoCharFoundError` (its "single word"
clearing branch is dead code behind an impossible `index_word == -1` test). -/
def c9app : App := { baseApp with current_word := "abc".data, current_string := "abc".data }

/-- C9: when `current_word` contains an internal space, word-erase removes
the characters after the last space (and the space) from both buffers, as
claimed; but when it contains no space the operation does **not** clear the
word — it fails with an error (`none`), the session-fatal divergence. -/
theorem erase_word_spec :
    (∀ (a : App) (u v p : List Char), ' ' ∉ v →
      a.current_word = u ++ ' ' :: v →
      a.current_string = p ++ ' ' :: v →
      erase_word a = some { a with current_word := u, current_string := p }) ∧
    erase_word c9app = none := by
  constructor
  · intro a u v p hv hcw hcs
    have hspace : rfindSpaceByte (u ++ ' ' :: v) = some (byteLen u) :=
      rfindSpaceByte_last_space u v hv
    have hsz : Char.utf8Size ' ' = 1 := rfl
    have hne : ¬(u ++ ' ' :: v = []) := by simp
    have h1 : byteLen (u ++ ' ' :: v) -
        (byteLen (u ++ ' ' :: v) - byteLen u) = byteLen u := by
      simp only [byteLen_append, byteLen_cons, hsz]; omega
    have h2 : byteLen (p ++ ' ' :: v) -
        (byteLen (u ++ ' ' :: v) - byteLen u) = byteLen p := by
      simp only [byteLen_append, byteLen_cons, hsz]; omega
    have hneg : ¬((byteLen u : Int) = -1) := by omega
    simp only [erase_word, hcw, hcs, hspace, if_neg hne, if_neg hneg, h1, h2,
      byteTake_byteLen_append]
  · decide

/-- Session state whose in-progress word `teh xy` carries an internal space
(the word `teh` was accepted as a mismatch, then `xy` typed after it). -/
def c9mid : App :=
  { baseApp with current_word := "teh xy".data, current_string := "teh xy".data }

/-- Witness for C9: erasing the word of `c9mid` removes `xy` and the space
from both buffers, landing on the previous space boundary. -/
theorem erase_word_spec_witness :
    erase_word c9mid =
      some { c9mid with current_word := "teh".data, current_string := "teh".data } :=
  erase_word_spec.1 c9mid "teh".data "xy".data "teh".data (by decide) (by decide) (by decide)

/-! ## Claim C3 — the word-limit overflow guard -/

/-- Session state stuck at the word limit: eight characters typed toward a
word, with the window's word limit also eight. -/
def c3app : App :=
  { baseApp with
    text := "lorem ipsum dolor".data
    text_backup := "lorem ipsum dolor".data
    tokens := ["lorem".data, "ipsum".data, "dolor".data]
    current_word := "abcdefgh".data
    current_string := "abcdefgh".data
    total_chars_typed := 8 }

/-- Result of pressing a printable key in the `c3app` state: both buffers are
unchanged, but the keystroke **is** counted. -/
def c3res : App := { c3app with mistyped_keys := [7], total_chars_typed := 9 }

/-- C3 (counterexample): with `current_word` exactly at `word_limit`, a
printable character is appended to neither buffer — but, contrary to the
claim, `total_chars_typed` is still incremented (the `+= 1` sits outside the
length guard of `appendkey`). -/
theorem key_printer_overflow_counts_keystroke :
    byteLen c3app.current_word = c3app.current_word_limit ∧
    key_printer 0 c3app (Input.Character 'x') = some (c3res, false) ∧
    c3res.current_word = c3app.current_word ∧
    c3res.current_string = c3app.current_string ∧
    c3res.total_chars_typed = c3app.total_chars_typed + 1 := by
  exact ⟨by decide, by decide, by decide, by decide, by decide⟩

/-- C3 (amended): a printable character (not one of the control characters
Ctrl-C, Ctrl-Backspace, Backspace-as-`\x7f`) arriving while `current_word`
has already reached `word_limit` is appended to neither `current_word` nor
`current_string`, but it **does** increment `total_chars_typed`; away from
test completion the state update returns normally without an emission. -/
theorem key_printer_at_limit (now : ℚ) (a : App) (c : Char)
    (hlim : byteLen a.current_word = a.current_word_limit)
    (hc3 : c ≠ Char.ofNat 3) (hc23 : c ≠ Char.ofNat 23) (hc127 : c ≠ Char.ofNat 127)
    (hcs : byteLen a.current_string ≤ byteLen a.text)
    (hnc : first_index_at_which_strings_differ a.current_string a.text ≠ byteLen a.text) :
    ∃ b, key_printer now a (Input.Character c) = some (b, false) ∧
      b.current_word = a.current_word ∧
      b.current_string = a.current_string ∧
      b.total_chars_typed = a.total_chars_typed + 1 := by
  have h1 : is_escape (Input.Character c) = false := by simp [is_escape]
  have h2 : is_ctrl_c (Input.Character c) = false := by simp [is_ctrl_c, hc3]
  have h3 : is_resize (Input.Character c) = false := by simp [is_resize]
  have h4 : is_backspace (Input.Character c) = false := by simp [is_backspace, hc127]
  have h5 : is_ctrl_backspace (Input.Character c) = false := by simp [is_ctrl_backspace, hc23]
  have h6 : ¬(Input.Character c = Input.Character ' ' ∧
      byteLen a.current_word < a.current_word_limit) := by
    rintro ⟨-, hlt⟩; omega
  have happ : appendkey a [c] = a := by
    rw [appendkey, if_neg (by omega)]
  have hred : key_printer now a (Input.Character c) =
      update_state now { a with total_chars_typed := a.total_chars_typed + 1 } := by
    simp only [key_printer, h1, h2, h3, h4, h5, get_key_mapping, happ,
      is_valid_initial_key, Bool.false_eq_true, if_false, if_true]
    rw [if_neg h6]
  rw [hred]
  obtain h | h := update_state_no_completion now
      { a with total_chars_typed := a.total_chars_typed + 1 } hcs hnc
  · exact ⟨_, h, rfl, rfl, rfl⟩
  · exact ⟨_, h, rfl, rfl, rfl⟩

/-- Witness for C3 at the concrete stuck state. -/
theorem key_printer_at_limit_witness :
    ∃ b, key_printer 0 c3app (Input.Character 'x') = some (b, false) ∧
      b.current_word = c3app.current_word ∧
      b.current_string = c3app.current_string ∧
      b.total_chars_typed = c3app.total_chars_typed + 1 :=
  key_printer_at_limit 0 c3app 'x' (by decide) (by decide) (by decide) (by decide)
    (by decide) (by decide)

/-! ## Completion and idempotency-flag lemmas (claim C4) -/

theorem firstDiffGo_le (s1 s2 : List Char) :
    ∀ fuel i, firstDiffGo s1 s2 i fuel ≤ i + fuel := by
  intro fuel
  induction fuel with
  | zero => intro i; simp [firstDiffGo]
  | succ n ih =>
    intro i
    simp only [firstDiffGo]
    split_ifs
    · omega
    · have := ih (i + 1); omega

theorem first_index_le_min (s1 s2 : List Char) :
    first_index_at_which_strings_differ s1 s2 ≤ min (byteLen s1) (byteLen s2) := by
  simpa [first_index_at_which_strings_differ] using
    firstDiffGo_le s1 s2 (min (byteLen s1) (byteLen s2)) 0

/-- On a state whose completion flag is still false and whose mode is test
mode, `test_end` emits, sets the flag, and switches to replay mode. -/
theorem test_end_emits (now : ℚ) (a : App)
    (hflag : a.test_complete = false) (hmode : a.mode = 0) :
    (test_end now a).2 = true ∧ (test_end now a).1.test_complete = true ∧
    (test_end now a).1.mode = 1 := by
  simp [test_end, hmode, hflag]

/-- Once the completion flag is set, `test_end` emits nothing and keeps it
set. -/
theorem test_end_of_flag_true (now : ℚ) (a : App) (hflag : a.test_complete = true) :
    (test_end now a).2 = false ∧ (test_end now a).1.test_complete = true := by
  simp only [test_end]
  split_ifs with h1 h2 h3
  · exact absurd h2 (by simp [hflag])
  · exact ⟨rfl, hflag⟩
  · exact absurd h3 (by simp [hflag])
  · exact ⟨rfl, hflag⟩

/-- Once the completion flag is set, any state update emits nothing and keeps
it set. -/
theorem update_state_flag_true (now : ℚ) (a b : App) (e : Bool)
    (hflag : a.test_complete = true) (h : update_state now a = some (b, e)) :
    e = false ∧ b.test_complete = true := by
  simp only [update_state] at h
  split_ifs at h with g1 g2 g3 g4
  · rw [Option.some.injEq] at h
    obtain ⟨hE, hF⟩ := test_end_of_flag_true now
      { a with mistyped_keys := a.mistyped_keys ++ [byteLen a.current_string - 1] } hflag
    rw [h] at hE hF
    exact ⟨hE, hF⟩
  · rw [Option.some.injEq] at h
    obtain ⟨hE, hF⟩ := test_end_of_flag_true now a hflag
    rw [h] at hE hF
    exact ⟨hE, hF⟩
  · rw [Option.some.injEq, Prod.mk.injEq] at h
    obtain ⟨h1, h2⟩ := h
    exact ⟨h2.symm, by rw [← h1]; exact hflag⟩
  · rw [Option.some.injEq, Prod.mk.injEq] at h
    obtain ⟨h1, h2⟩ := h
    exact ⟨h2.symm, by rw [← h1]; exact hflag⟩

theorem erase_key_test_complete (a : App) :
    (erase_key a).test_complete = a.test_complete := by
  rw [erase_key]; split_ifs <;> rfl

theorem erase_word_test_complete (a a' : App) (h : erase_word a = some a') :
    a'.test_complete = a.test_complete := by
  by_cases h1 : a.current_word = []
  · rw [erase_word, if_pos h1, Option.some.injEq] at h
    rw [← h]
  · rw [erase_word, if_neg h1] at h
    cases hr : rfindSpaceByte a.current_word with
    | none => rw [hr] at h; exact absurd h (by simp)
    | some idx =>
      rw [hr] at h
      dsimp only at h
      split_ifs at h <;> (rw [Option.some.injEq] at h; rw [← h])

theorem check_word_test_complete (a a' : App) (h : check_word a = some a') :
    a'.test_complete = a.test_complete := by
  simp only [check_word] at h
  cases hg : get_space_count_after_ith_word (byteLen a.current_string) a.text with
  | none => rw [hg] at h; exact absurd h (by simp)
  | some spc =>
    rw [hg] at h
    dsimp only at h
    cases ht : a.tokens.get? a.token_index with
    | none => rw [ht] at h; exact absurd h (by simp)
    | some tok =>
      rw [ht] at h
      dsimp only at h
      split_ifs at h <;> (rw [Option.some.injEq] at h; rw [← h])

theorem appendkey_test_complete (a : App) (key : List Char) :
    (appendkey a key).test_complete = a.test_complete := by
  rw [appendkey]; split_ifs <;> rfl

/-- Once the completion flag is set, any non-Escape key processed by
`key_printer` emits nothing and keeps it set. -/
theorem key_printer_flag_true (now : ℚ) (a b : App) (e : Bool) (k : Input)
    (hesc : ¬is_escape k = true) (hflag : a.test_complete = true)
    (h : key_printer now a k = some (b, e)) :
    e = false ∧ b.test_complete = true := by
  simp only [key_printer] at h
  rw [if_neg hesc] at h
  split_ifs at h with g1 g2 g3 g4 g5 g6 g7
  · exact update_state_flag_true now _ b e (by rw [erase_key_test_complete]; exact hflag) h
  · cases hw : erase_word a with
    | none => rw [hw] at h; exact absurd h (by simp)
    | some a' =>
      rw [hw] at h
      dsimp only at h
      exact update_state_flag_true now _ b e
        (by rw [erase_word_test_complete a a' hw]; exact hflag) h
  · -- space branch, empty current word
    exact update_state_flag_true now
      { a with total_chars_typed := a.total_chars_typed + 1 } b e hflag h
  · -- space branch, word acceptance
    cases hw : check_word { a with total_chars_typed := a.total_chars_typed + 1 } with
    | none => rw [hw] at h; exact absurd h (by simp)
    | some a' =>
      rw [hw] at h
      dsimp only at h
      exact update_state_flag_true now _ b e
        (by rw [check_word_test_complete _ a' hw]; exact hflag) h
  · exact update_state_flag_true now _ b e
      (by simp [appendkey_test_complete, hflag]) h
  · exact update_state_flag_true now _ b e hflag h

/-- Once the completion flag is set, an entire escape-free replay of logged
keys emits nothing and keeps it set. -/
theorem replay_flag_true (ks : List (ℚ × Input)) :
    ∀ (a : App), (∀ x ∈ ks, ¬is_escape x.2 = true) → a.test_complete = true →
      ∀ b n, replay ks a = some (b, n) → n = 0 ∧ b.test_complete = true := by
  induction ks with
  | nil =>
    intro a _ hflag b n h
    simp only [replay, Option.some.injEq, Prod.mk.injEq] at h
    exact ⟨h.2.symm, by rw [← h.1]; exact hflag⟩
  | cons x rest ih =>
    intro a hks hflag b n h
    obtain ⟨t, k⟩ := x
    simp only [replay] at h
    cases hk : key_printer t a k with
    | none => rw [hk] at h; exact absurd h (by simp)
    | some r =>
      rw [hk] at h
      obtain ⟨a', e⟩ := r
      obtain ⟨he, hf⟩ := key_printer_flag_true t a a' e k
        (hks (t, k) (List.mem_cons_self _ _)) hflag hk
      dsimp only at h
      cases hr : replay rest a' with
      | none => rw [hr] at h; exact absurd h (by simp)
      | some s =>
        rw [hr] at h
        obtain ⟨a'', n'⟩ := s
        obtain ⟨hn, hf2⟩ := ih a' (fun y hy => hks y (List.mem_cons_of_mem _ hy)) hf a'' n' hr
        dsimp only at h
        rw [Option.some.injEq, Prod.mk.injEq] at h
        refine ⟨?_, by rw [← h.1]; exact hf2⟩
        rw [← h.2, he, hn]
        simp

/-- The state update triggered at completion: when the diff index equals the
wrapped length, the flag is still clear and the run is in test mode, exactly
one emission happens, the flag is set, and the mode switches to replay. -/
theorem update_state_completes (now : ℚ) (a : App)
    (hflag : a.test_complete = false) (hmode : a.mode = 0)
    (hidx : first_index_at_which_strings_differ a.current_string a.text = byteLen a.text)
    (hcs : byteLen a.current_string ≤ byteLen a.text) :
    ∃ b, update_state now a = some (b, true) ∧ b.test_complete = true ∧ b.mode = 1 := by
  have hle := first_index_le_min a.current_string a.text
  have hpush : ¬(first_index_at_which_strings_differ a.current_string a.text <
      byteLen a.current_string ∧ byteLen a.current_string ≤ byteLen a.text) := by
    rintro ⟨h1, -⟩
    rw [hidx] at h1
    omega
  obtain ⟨hE, hF, hM⟩ := test_end_emits now a hflag hmode
  refine ⟨(test_end now a).1, ?_, hF, hM⟩
  simp only [update_state]
  rw [if_neg (by omega : ¬byteLen a.text < byteLen a.current_string)]
  rw [if_neg hpush, if_pos hidx, ← hE, Prod.mk.eta]

/-! ## Claim C4 — the finalize event fires exactly once per run -/

/-- C4: the finalize emission happens exactly once per completed run.  First
conjunct: the state update that first sees the diff index reach the wrapped
length (flag still clear, test mode, non-empty key log — the source panics on
an empty one) emits exactly once, sets the idempotency flag and enters the
Finished/replay mode.  Second and third conjuncts: while the flag is set, no
state update and no escape-free replayed key sequence ever emits again, and
the flag stays set.  Fourth conjunct: an explicit Retry (`reset_test`) is
what clears the flag. -/
theorem finalize_emitted_once :
    (∀ (now : ℚ) (a : App), a.test_complete = false → a.mode = 0 →
      a.key_strokes ≠ [] →
      first_index_at_which_strings_differ a.current_string a.text = byteLen a.text →
      byteLen a.current_string ≤ byteLen a.text →
      ∃ b, update_state now a = some (b, true) ∧ b.test_complete = true ∧ b.mode = 1) ∧
    (∀ (now : ℚ) (a b : App) (e : Bool), a.test_complete = true →
      update_state now a = some (b, e) → e = false ∧ b.test_complete = true) ∧
    (∀ (ks : List (ℚ × Input)) (a : App), (∀ x ∈ ks, ¬is_escape x.2 = true) →
      a.test_complete = true →
      ∀ b n, replay ks a = some (b, n) → n = 0 ∧ b.test_complete = true) ∧
    (∀ (now : ℚ) (a : App), (reset_test now a).test_complete = false) := by
  refine ⟨?_, ?_, ?_, ?_⟩
  · intro now a hflag hmode _hks hidx hcs
    exact update_state_completes now a hflag hmode hidx hcs
  · intro now a b e hflag h
    exact update_state_flag_true now a b e hflag h
  · intro ks a hks hflag b n h
    exact replay_flag_true ks a hks hflag b n h
  · intro now a
    rfl

/-- Fully typed session over `"the cat"` with one recorded keystroke, about
to run its completing state update. -/
def c4app : App :=
  { baseApp with
    current_string := "the cat".data
    key_strokes := [(0, Input.Character 't')] }

/-- Witness for C4: the completing update on `c4app` emits once, sets the
flag and switches to replay mode. -/
theorem finalize_emitted_once_witness :
    ∃ b, update_state 1 c4app = some (b, true) ∧ b.test_complete = true ∧ b.mode = 1 :=
  finalize_emitted_once.1 1 c4app (by decide) (by decide) (by decide) (by decide)
    (by decide)

/-! ## Replay simulation lemmas (claim C5)

The typing core — `current_word`, `current_string`, `token_index` together
with the per-text constants `text`, `tokens`, `current_word_limit` — is the
only state the per-key transitions read; clocks, mode, the key log and the
cached metrics never feed back into it.  The lemmas below make that precise
and drive the replay-determinism claim. -/

theorem test_end_core (now : ℚ) (x : App) :
    (test_end now x).1.current_word = [] ∧ (test_end now x).1.current_string = [] ∧
    (test_end now x).1.token_index = 0 ∧ (test_end now x).1.text = x.text ∧
    (test_end now x).1.tokens = x.tokens ∧
    (test_end now x).1.current_word_limit = x.current_word_limit ∧
    (test_end now x).1.mistyped_keys = x.mistyped_keys := by
  simp only [test_end]
  split_ifs <;> exact ⟨rfl, rfl, rfl, rfl, rfl, rfl, rfl⟩

theorem test_end_mode1 (now : ℚ) (x : App) (hm : x.mode = 1) :
    (test_end now x).1.mode = 1 ∧
    (test_end now x).1.current_speed_wpm = x.current_speed_wpm ∧
    (test_end now x).1.accuracy = x.accuracy ∧
    (test_end now x).1.time_taken = x.time_taken := by
  simp only [test_end]
  rw [if_neg (by omega : ¬x.mode = 0)]
  split_ifs <;> exact ⟨hm, rfl, rfl, rfl⟩

/-- State updates correspond on core-agreeing states: they fail together, and
on success the cores still agree, the same mistyped positions are appended on
both sides, and the replay side (mode 1) keeps its cached metrics and its
wrapped text. -/
theorem update_state_sim (na nb : ℚ) (a b : App)
    (hcw : a.current_word = b.current_word) (hcs : a.current_string = b.current_string)
    (hti : a.token_index = b.token_index) (htx : a.text = b.text)
    (htk : a.tokens = b.tokens) (hlim : a.current_word_limit = b.current_word_limit)
    (hmode : b.mode = 1) :
    (update_state na a = none ↔ update_state nb b = none) ∧
    ∀ a2 ea b2 eb, update_state na a = some (a2, ea) → update_state nb b = some (b2, eb) →
      (a2.current_word = b2.current_word ∧ a2.current_string = b2.current_string ∧
       a2.token_index = b2.token_index ∧ a2.text = b2.text ∧ a2.tokens = b2.tokens ∧
       a2.current_word_limit = b2.current_word_limit) ∧
      (∃ d, a2.mistyped_keys = a.mistyped_keys ++ d ∧
            b2.mistyped_keys = b.mistyped_keys ++ d) ∧
      b2.mode = 1 ∧ b2.current_speed_wpm = b.current_speed_wpm ∧
      b2.accuracy = b.accuracy ∧ b2.time_taken = b.time_taken ∧
      b2.text = b.text := by
  by_cases hg : byteLen b.text < byteLen b.current_string
  · have ha : update_state na a = none := by
      simp only [update_state]
      rw [if_pos (by rw [hcs, htx]; exact hg)]
    have hb : update_state nb b = none := by
      simp only [update_state]
      rw [if_pos hg]
    refine ⟨by rw [ha, hb], fun a2 ea b2 eb h1 _ => ?_⟩
    rw [ha] at h1
    exact absurd h1 (by simp)
  · have hga : ¬byteLen a.text < byteLen a.current_string := by rw [hcs, htx]; exact hg
    by_cases hp : first_index_at_which_strings_differ b.current_string b.text <
        byteLen b.current_string ∧ byteLen b.current_string ≤ byteLen b.text
    · by_cases hfin : first_index_at_which_strings_differ b.current_string b.text =
          byteLen b.text
      · -- push recorded, then completion
        have ha : update_state na a = some (test_end na
            { a with mistyped_keys := a.mistyped_keys ++ [byteLen a.current_string - 1] }) := by
          simp only [update_state]
          rw [if_neg hga, if_pos (by rw [hcs, htx]; exact hfin),
            if_pos (by rw [hcs, htx]; exact hp)]
        have hb : update_state nb b = some (test_end nb
            { b with mistyped_keys := b.mistyped_keys ++ [byteLen b.current_string - 1] }) := by
          simp only [update_state]
          rw [if_neg hg, if_pos hfin, if_pos hp]
        refine ⟨by rw [ha, hb]; simp, fun a2 ea b2 eb h1 h2 => ?_⟩
        rw [ha, Option.some.injEq] at h1
        rw [hb, Option.some.injEq] at h2
        have ha2 : (test_end na
            { a with mistyped_keys := a.mistyped_keys ++ [byteLen a.current_string - 1] }).1
            = a2 := by rw [h1]
        have hb2 : (test_end nb
            { b with mistyped_keys := b.mistyped_keys ++ [byteLen b.current_string - 1] }).1
            = b2 := by rw [h2]
        obtain ⟨hA1, hA2, hA3, hA4, hA5, hA6, hA7⟩ := test_end_core na
          { a with mistyped_keys := a.mistyped_keys ++ [byteLen a.current_string - 1] }
        obtain ⟨hB1, hB2, hB3, hB4, hB5, hB6, hB7⟩ := test_end_core nb
          { b with mistyped_keys := b.mistyped_keys ++ [byteLen b.current_string - 1] }
        obtain ⟨hM1, hM2, hM3, hM4⟩ := test_end_mode1 nb
          { b with mistyped_keys := b.mistyped_keys ++ [byteLen b.current_string - 1] } hmode
        rw [ha2] at hA1 hA2 hA3 hA4 hA5 hA6 hA7
        rw [hb2] at hB1 hB2 hB3 hB4 hB5 hB6 hB7 hM1 hM2 hM3 hM4
        refine ⟨⟨by rw [hA1, hB1], by rw [hA2, hB2], by rw [hA3, hB3],
          by rw [hA4, hB4, htx], by rw [hA5, hB5, htk], by rw [hA6, hB6, hlim]⟩,
          ⟨[byteLen b.current_string - 1], by rw [hA7, hcs], by rw [hB7]⟩,
          hM1, hM2, hM3, hM4, hB4⟩
      · -- push recorded, no completion
        have ha : update_state na a = some
            ({ a with mistyped_keys := a.mistyped_keys ++ [byteLen a.current_string - 1] },
              false) := by
          simp only [update_state]
          rw [if_neg hga, if_neg (by rw [hcs, htx]; exact hfin),
            if_pos (by rw [hcs, htx]; exact hp)]
        have hb : update_state nb b = some
            ({ b with mistyped_keys := b.mistyped_keys ++ [byteLen b.current_string - 1] },
              false) := by
          simp only [update_state]
          rw [if_neg hg, if_neg hfin, if_pos hp]
        refine ⟨by rw [ha, hb]; simp, fun a2 ea b2 eb h1 h2 => ?_⟩
        rw [ha, Option.some.injEq, Prod.mk.injEq] at h1
        rw [hb, Option.some.injEq, Prod.mk.injEq] at h2
        rw [← h1.1, ← h2.1]
        exact ⟨⟨hcw, hcs, hti, htx, htk, hlim⟩,
          ⟨[byteLen b.current_string - 1], by rw [hcs], rfl⟩, hmode, rfl, rfl, rfl, rfl⟩
    · by_cases hfin : first_index_at_which_strings_differ b.current_string b.text =
          byteLen b.text
      · -- no push, completion
        have ha : update_state na a = some (test_end na a) := by
          simp only [update_state]
          rw [if_neg hga, if_pos (by rw [hcs, htx]; exact hfin),
            if_neg (by rw [hcs, htx]; exact hp)]
        have hb : update_state nb b = some (test_end nb b) := by
          simp only [update_state]
          rw [if_neg hg, if_pos hfin, if_neg hp]
        refine ⟨by rw [ha, hb]; simp, fun a2 ea b2 eb h1 h2 => ?_⟩
        rw [ha, Option.some.injEq] at h1
        rw [hb, Option.some.injEq] at h2
        have ha2 : (test_end na a).1 = a2 := by rw [h1]
        have hb2 : (test_end nb b).1 = b2 := by rw [h2]
        obtain ⟨hA1, hA2, hA3, hA4, hA5, hA6, hA7⟩ := test_end_core na a
        obtain ⟨hB1, hB2, hB3, hB4, hB5, hB6, hB7⟩ := test_end_core nb b
        obtain ⟨hM1, hM2, hM3, hM4⟩ := test_end_mode1 nb b hmode
        rw [ha2] at hA1 hA2 hA3 hA4 hA5 hA6 hA7
        rw [hb2] at hB1 hB2 hB3 hB4 hB5 hB6 hB7 hM1 hM2 hM3 hM4
        refine ⟨⟨by rw [hA1, hB1], by rw [hA2, hB2], by rw [hA3, hB3],
          by rw [hA4, hB4, htx], by rw [hA5, hB5, htk], by rw [hA6, hB6, hlim]⟩,
          ⟨[], by rw [hA7]; simp, by rw [hB7]; simp⟩, hM1, hM2, hM3, hM4, hB4⟩
      · -- no push, no completion
        have ha : update_state na a = some (a, false) := by
          simp only [update_state]
          rw [if_neg hga, if_neg (by rw [hcs, htx]; exact hfin),
            if_neg (by rw [hcs, htx]; exact hp)]
        have hb : update_state nb b = some (b, false) := by
          simp only [update_state]
          rw [if_neg hg, if_neg hfin, if_neg hp]
        refine ⟨by rw [ha, hb]; simp, fun a2 ea b2 eb h1 h2 => ?_⟩
        rw [ha, Option.some.injEq, Prod.mk.injEq] at h1
        rw [hb, Option.some.injEq, Prod.mk.injEq] at h2
        rw [← h1.1, ← h2.1]
        exact ⟨⟨hcw, hcs, hti, htx, htk, hlim⟩, ⟨[], by simp, by simp⟩,
          hmode, rfl, rfl, rfl, rfl⟩

theorem erase_key_sim (a b : App) (hcw : a.current_word = b.current_word)
    (hcs : a.current_string = b.current_string) :
    (erase_key a).current_word = (erase_key b).current_word ∧
    (erase_key a).current_string = (erase_key b).current_string := by
  simp only [erase_key, hcw, hcs]
  split_ifs
  · exact ⟨hcw, hcs⟩
  · exact ⟨rfl, rfl⟩

theorem erase_key_frame (x : App) :
    (erase_key x).token_index = x.token_index ∧ (erase_key x).text = x.text ∧
    (erase_key x).tokens = x.tokens ∧
    (erase_key x).current_word_limit = x.current_word_limit ∧
    (erase_key x).mistyped_keys = x.mistyped_keys ∧ (erase_key x).mode = x.mode ∧
    (erase_key x).current_speed_wpm = x.current_speed_wpm ∧
    (erase_key x).accuracy = x.accuracy ∧ (erase_key x).time_taken = x.time_taken := by
  simp only [erase_key]
  split_ifs <;> exact ⟨rfl, rfl, rfl, rfl, rfl, rfl, rfl, rfl, rfl⟩

theorem appendkey_frame (x : App) (key : List Char) :
    (appendkey x key).token_index = x.token_index ∧ (appendkey x key).text = x.text ∧
    (appendkey x key).tokens = x.tokens ∧
    (appendkey x key).current_word_limit = x.current_word_limit ∧
    (appendkey x key).mistyped_keys = x.mistyped_keys ∧
    (appendkey x key).mode = x.mode ∧
    (appendkey x key).current_speed_wpm = x.current_speed_wpm ∧
    (appendkey x key).accuracy = x.accuracy ∧
    (appendkey x key).time_taken = x.time_taken := by
  simp only [appendkey]
  split_ifs <;> exact ⟨rfl, rfl, rfl, rfl, rfl, rfl, rfl, rfl, rfl⟩

theorem appendkey_sim (a b : App) (key : List Char)
    (hcw : a.current_word = b.current_word) (hcs : a.current_string = b.current_string)
    (hlim : a.current_word_limit = b.current_word_limit) :
    (appendkey a key).current_word = (appendkey b key).current_word ∧
    (appendkey a key).current_string = (appendkey b key).current_string := by
  simp only [appendkey, hcw, hcs, hlim]
  split_ifs
  · exact ⟨rfl, rfl⟩
  · exact ⟨hcw, hcs⟩

theorem erase_word_sim (a b : App)
    (hcw : a.current_word = b.current_word) (hcs : a.current_string = b.current_string) :
    (erase_word a = none ↔ erase_word b = none) ∧
    ∀ a2 b2, erase_word a = some a2 → erase_word b = some b2 →
      a2.current_word = b2.current_word ∧ a2.current_string = b2.current_string ∧
      a2.token_index = a.token_index ∧ b2.token_index = b.token_index ∧
      a2.text = a.text ∧ b2.text = b.text ∧ a2.tokens = a.tokens ∧ b2.tokens = b.tokens ∧
      a2.current_word_limit = a.current_word_limit ∧
      b2.current_word_limit = b.current_word_limit ∧
      a2.mistyped_keys = a.mistyped_keys ∧ b2.mistyped_keys = b.mistyped_keys ∧
      b2.mode = b.mode ∧ b2.current_speed_wpm = b.current_speed_wpm ∧
      b2.accuracy = b.accuracy ∧ b2.time_taken = b.time_taken := by
  by_cases h1 : b.current_word = []
  · have ha : erase_word a = some a := by
      rw [erase_word, if_pos (by rw [hcw]; exact h1)]
    have hb : erase_word b = some b := by
      rw [erase_word, if_pos h1]
    refine ⟨by rw [ha, hb]; simp, fun a2 b2 ha2 hb2 => ?_⟩
    rw [ha, Option.some.injEq] at ha2
    rw [hb, Option.some.injEq] at hb2
    rw [← ha2, ← hb2]
    exact ⟨hcw, hcs, rfl, rfl, rfl, rfl, rfl, rfl, rfl, rfl, rfl, rfl, rfl, rfl, rfl, rfl⟩
  · cases hr : rfindSpaceByte b.current_word with
    | none =>
      have ha : erase_word a = none := by
        rw [erase_word, if_neg (by rw [hcw]; exact h1), hcw, hr]
      have hb : erase_word b = none := by
        rw [erase_word, if_neg h1, hr]
      exact ⟨by rw [ha, hb], fun a2 b2 ha2 _ => by
        rw [ha] at ha2; exact absurd ha2 (by simp)⟩
    | some idx =>
      have hneg : ¬((idx : Int) = -1) := by omega
      have ha : erase_word a = some
          { a with
            current_word := byteTake
              (byteLen a.current_word - (byteLen a.current_word - idx)) a.current_word,
            current_string := byteTake
              (byteLen a.current_string - (byteLen a.current_word - idx))
              a.current_string } := by
        rw [erase_word, if_neg (by rw [hcw]; exact h1), hcw, hr]
        dsimp only
        rw [if_neg hneg, ← hcw]
      have hb : erase_word b = some
          { b with
            current_word := byteTake
              (byteLen b.current_word - (byteLen b.current_word - idx)) b.current_word,
            current_string := byteTake
              (byteLen b.current_string - (byteLen b.current_word - idx))
              b.current_string } := by
        rw [erase_word, if_neg h1, hr]
        dsimp only
        rw [if_neg hneg]
      refine ⟨by rw [ha, hb]; simp, fun a2 b2 ha2 hb2 => ?_⟩
      rw [ha, Option.some.injEq] at ha2
      rw [hb, Option.some.injEq] at hb2
      rw [← ha2, ← hb2]
      exact ⟨by rw [hcw], by rw [hcw, hcs], rfl, rfl, rfl, rfl, rfl, rfl, rfl, rfl,
        rfl, rfl, rfl, rfl, rfl, rfl⟩

theorem check_word_sim (a b : App)
    (hcw : a.current_word = b.current_word) (hcs : a.current_string = b.current_string)
    (hti : a.token_index = b.token_index) (htx : a.text = b.text)
    (htk : a.tokens = b.tokens) :
    (check_word a = none ↔ check_word b = none) ∧
    ∀ a2 b2, check_word a = some a2 → check_word b = some b2 →
      a2.current_word = b2.current_word ∧ a2.current_string = b2.current_string ∧
      a2.token_index = b2.token_index ∧ a2.text = a.text ∧ b2.text = b.text ∧
      a2.tokens = a.tokens ∧ b2.tokens = b.tokens ∧
      a2.current_word_limit = a.current_word_limit ∧
      b2.current_word_limit = b.current_word_limit ∧
      a2.mistyped_keys = a.mistyped_keys ∧ b2.mistyped_keys = b.mistyped_keys ∧
      b2.mode = b.mode ∧ b2.current_speed_wpm = b.current_speed_wpm ∧
      b2.accuracy = b.accuracy ∧ b2.time_taken = b.time_taken := by
  have hga : get_space_count_after_ith_word (byteLen a.current_string) a.text =
      get_space_count_after_ith_word (byteLen b.current_string) b.text := by
    rw [hcs, htx]
  have hta : a.tokens.get? a.token_index = b.tokens.get? b.token_index := by
    rw [htk, hti]
  cases hg : get_space_count_after_ith_word (byteLen b.current_string) b.text with
  | none =>
    have ha : check_word a = none := by
      simp only [check_word]
      rw [hga, hg]
    have hb : check_word b = none := by
      simp only [check_word]
      rw [hg]
    exact ⟨by rw [ha, hb], fun a2 b2 ha2 _ => by
      rw [ha] at ha2; exact absurd ha2 (by simp)⟩
  | some spc =>
    cases ht : b.tokens.get? b.token_index with
    | none =>
      have ha : check_word a = none := by
        simp only [check_word]
        rw [hga, hg]
        dsimp only
        rw [hta, ht]
      have hb : check_word b = none := by
        simp only [check_word]
        rw [hg]
        dsimp only
        rw [ht]
      exact ⟨by rw [ha, hb], fun a2 b2 ha2 _ => by
        rw [ha] at ha2; exact absurd ha2 (by simp)⟩
    | some tok =>
      by_cases hc : b.current_word = tok
      · have ha : check_word a = some { a with
            token_index := a.token_index + 1, current_word := [],
            current_string := a.current_string ++ List.replicate spc ' ' } := by
          simp only [check_word]
          rw [hga, hg]
          dsimp only
          rw [hta, ht]
          dsimp only
          rw [if_pos (by rw [hcw]; exact hc)]
        have hb : check_word b = some { b with
            token_index := b.token_index + 1, current_word := [],
            current_string := b.current_string ++ List.replicate spc ' ' } := by
          simp only [check_word]
          rw [hg]
          dsimp only
          rw [ht]
          dsimp only
          rw [if_pos hc]
        refine ⟨by rw [ha, hb]; simp, fun a2 b2 ha2 hb2 => ?_⟩
        rw [ha, Option.some.injEq] at ha2
        rw [hb, Option.some.injEq] at hb2
        rw [← ha2, ← hb2]
        exact ⟨rfl, by rw [hcs], by rw [hti], rfl, rfl, rfl, rfl, rfl, rfl, rfl, rfl,
          rfl, rfl, rfl, rfl⟩
      · have ha : check_word a = some { a with
            current_word := a.current_word ++ [' '],
            current_string := a.current_string ++ [' '] } := by
          simp only [check_word]
          rw [hga, hg]
          dsimp only
          rw [hta, ht]
          dsimp only
          rw [if_neg (by rw [hcw]; exact hc)]
        have hb : check_word b = some { b with
            current_word := b.current_word ++ [' '],
            current_string := b.current_string ++ [' '] } := by
          simp only [check_word]
          rw [hg]
          dsimp only
          rw [ht]
          dsimp only
          rw [if_neg hc]
        refine ⟨by rw [ha, hb]; simp, fun a2 b2 ha2 hb2 => ?_⟩
        rw [ha, Option.some.injEq] at ha2
        rw [hb, Option.some.injEq] at hb2
        rw [← ha2, ← hb2]
        exact ⟨by rw [hcw], by rw [hcs], hti, rfl, rfl, rfl, rfl, rfl, rfl, rfl, rfl,
          rfl, rfl, rfl, rfl⟩

/-- Character keys processed by `key_printer` correspond on core-agreeing
states: both runs fail together, and on success the cores agree, identical
mistyped positions are appended, and the replay side keeps mode 1, its cached
metrics and its wrapped text.  (Character events are never Escape or Resize,
the two keys that leave the pure transition path.) -/
theorem key_printer_sim_char (na nb : ℚ) (a b : App) (c : Char)
    (hcw : a.current_word = b.current_word) (hcs : a.current_string = b.current_string)
    (hti : a.token_index = b.token_index) (htx : a.text = b.text)
    (htk : a.tokens = b.tokens) (hlim : a.current_word_limit = b.current_word_limit)
    (hmode : b.mode = 1) :
    (key_printer na a (Input.Character c) = none ↔
      key_printer nb b (Input.Character c) = none) ∧
    ∀ a2 ea b2 eb, key_printer na a (Input.Character c) = some (a2, ea) →
      key_printer nb b (Input.Character c) = some (b2, eb) →
      (a2.current_word = b2.current_word ∧ a2.current_string = b2.current_string ∧
       a2.token_index = b2.token_index ∧ a2.text = b2.text ∧ a2.tokens = b2.tokens ∧
       a2.current_word_limit = b2.current_word_limit) ∧
      (∃ d, a2.mistyped_keys = a.mistyped_keys ++ d ∧
            b2.mistyped_keys = b.mistyped_keys ++ d) ∧
      b2.mode = 1 ∧ b2.current_speed_wpm = b.current_speed_wpm ∧
      b2.accuracy = b.accuracy ∧ b2.time_taken = b.time_taken ∧
      b2.text = b.text := by
  have hesc : is_escape (Input.Character c) = false := by simp [is_escape]
  have hrsz : is_resize (Input.Character c) = false := by simp [is_resize]
  by_cases hc3 : c = Char.ofNat 3
  · -- Ctrl-C: exit on both sides
    have hcc : is_ctrl_c (Input.Character c) = true := by simp [is_ctrl_c, hc3]
    have ha : key_printer na a (Input.Character c) = none := by
      simp [key_printer, hesc, hcc]
    have hb : key_printer nb b (Input.Character c) = none := by
      simp [key_printer, hesc, hcc]
    exact ⟨by rw [ha, hb], fun a2 ea b2 eb h1 _ => by
      rw [ha] at h1; exact absurd h1 (by simp)⟩
  · have hcc : is_ctrl_c (Input.Character c) = false := by simp [is_ctrl_c, hc3]
    by_cases hc127 : c = Char.ofNat 127
    · -- Backspace character: erase one key on both sides
      have hbk : is_backspace (Input.Character c) = true := by
        simp [is_backspace, hc127]
      have ha : key_printer na a (Input.Character c) = update_state na (erase_key a) := by
        simp only [key_printer, hesc, hcc, hrsz, hbk, Bool.false_eq_true, if_false,
          if_true]
      have hb : key_printer nb b (Input.Character c) = update_state nb (erase_key b) := by
        simp only [key_printer, hesc, hcc, hrsz, hbk, Bool.false_eq_true, if_false,
          if_true]
      obtain ⟨hk1, hk2⟩ := erase_key_sim a b hcw hcs
      obtain ⟨fA1, fA2, fA3, fA4, fA5, fA6, fA7, fA8, fA9⟩ := erase_key_frame a
      obtain ⟨fB1, fB2, fB3, fB4, fB5, fB6, fB7, fB8, fB9⟩ := erase_key_frame b
      obtain ⟨hiff, hsome⟩ := update_state_sim na nb (erase_key a) (erase_key b)
        hk1 hk2 (by rw [fA1, fB1, hti]) (by rw [fA2, fB2, htx]) (by rw [fA3, fB3, htk])
        (by rw [fA4, fB4, hlim]) (by rw [fB6, hmode])
      refine ⟨by rw [ha, hb]; exact hiff, fun a2 ea b2 eb h1 h2 => ?_⟩
      rw [ha] at h1
      rw [hb] at h2
      obtain ⟨hcore, ⟨d, hd1, hd2⟩, hm, hq1, hq2, hq3, hbt⟩ := hsome a2 ea b2 eb h1 h2
      exact ⟨hcore, ⟨d, by rw [hd1, fA5], by rw [hd2, fB5]⟩, hm,
        by rw [hq1, fB7], by rw [hq2, fB8], by rw [hq3, fB9], by rw [hbt, fB2]⟩
    · have hbk : is_backspace (Input.Character c) = false := by
        simp [is_backspace, hc127]
      by_cases hc23 : c = Char.ofNat 23
      · -- Ctrl-Backspace: erase the word on both sides
        have hcb : is_ctrl_backspace (Input.Character c) = true := by
          simp [is_ctrl_backspace, hc23]
        have ha : key_printer na a (Input.Character c) =
            (match erase_word a with
              | none => none
              | some a' => update_state na a') := by
          simp only [key_printer, hesc, hcc, hrsz, hbk, hcb, Bool.false_eq_true,
            if_false, if_true]
        have hb : key_printer nb b (Input.Character c) =
            (match erase_word b with
              | none => none
              | some b' => update_state nb b') := by
          simp only [key_printer, hesc, hcc, hrsz, hbk, hcb, Bool.false_eq_true,
            if_false, if_true]
        obtain ⟨hiffW, hsomeW⟩ := erase_word_sim a b hcw hcs
        cases hwb : erase_word b with
        | none =>
          have hwa : erase_word a = none := hiffW.mpr hwb
          have ha2 : key_printer na a (Input.Character c) = none := by rw [ha, hwa]
          have hb2 : key_printer nb b (Input.Character c) = none := by rw [hb, hwb]
          exact ⟨by rw [ha2, hb2], fun a2 ea b2 eb h1 _ => by
            rw [ha2] at h1; exact absurd h1 (by simp)⟩
        | some b' =>
          cases hwa : erase_word a with
          | none =>
            have : erase_word b = none := hiffW.mp hwa
            rw [hwb] at this
            exact absurd this (by simp)
          | some a' =>
            obtain ⟨w1, w2, w3, w4, w5, w6, w7, w8, w9, w10, w11, w12, w13, w14,
              w15, w16⟩ := hsomeW a' b' hwa hwb
            have ha2 : key_printer na a (Input.Character c) = update_state na a' := by
              rw [ha, hwa]
            have hb2 : key_printer nb b (Input.Character c) = update_state nb b' := by
              rw [hb, hwb]
            obtain ⟨hiff, hsome⟩ := update_state_sim na nb a' b'
              w1 w2 (by rw [w3, w4, hti]) (by rw [w5, w6, htx]) (by rw [w7, w8, htk])
              (by rw [w9, w10, hlim]) (by rw [w13, hmode])
            refine ⟨by rw [ha2, hb2]; exact hiff, fun a2 ea b2 eb h1 h2 => ?_⟩
            rw [ha2] at h1
            rw [hb2] at h2
            obtain ⟨hcore, ⟨d, hd1, hd2⟩, hm, hq1, hq2, hq3, hbt⟩ := hsome a2 ea b2 eb h1 h2
            exact ⟨hcore, ⟨d, by rw [hd1, w11], by rw [hd2, w12]⟩, hm,
              by rw [hq1, w14], by rw [hq2, w15], by rw [hq3, w16], by rw [hbt, w6]⟩
      · have hcb : is_ctrl_backspace (Input.Character c) = false := by
          simp [is_ctrl_backspace, hc23]
        by_cases hsp : c = ' ' ∧ byteLen b.current_word < b.current_word_limit
        · obtain ⟨hspc, hlt⟩ := hsp
          have hconda : Input.Character c = Input.Character ' ' ∧
              byteLen a.current_word < a.current_word_limit :=
            ⟨by rw [hspc], by rw [hcw, hlim]; exact hlt⟩
          have hcondb : Input.Character c = Input.Character ' ' ∧
              byteLen b.current_word < b.current_word_limit := ⟨by rw [hspc], hlt⟩
          by_cases hem : b.current_word = []
          · -- leading space on an empty word
            have ha : key_printer na a (Input.Character c) =
                update_state na { a with total_chars_typed := a.total_chars_typed + 1 } := by
              simp only [key_printer, hesc, hcc, hrsz, hbk, hcb, Bool.false_eq_true,
                if_false]
              rw [if_pos hconda, if_pos (by rw [hcw]; exact hem)]
            have hb : key_printer nb b (Input.Character c) =
                update_state nb { b with total_chars_typed := b.total_chars_typed + 1 } := by
              simp only [key_printer, hesc, hcc, hrsz, hbk, hcb, Bool.false_eq_true,
                if_false]
              rw [if_pos hcondb, if_pos hem]
            obtain ⟨hiff, hsome⟩ := update_state_sim na nb
              { a with total_chars_typed := a.total_chars_typed + 1 }
              { b with total_chars_typed := b.total_chars_typed + 1 }
              hcw hcs hti htx htk hlim hmode
            refine ⟨by rw [ha, hb]; exact hiff, fun a2 ea b2 eb h1 h2 => ?_⟩
            rw [ha] at h1
            rw [hb] at h2
            obtain ⟨hcore, ⟨d, hd1, hd2⟩, hm, hq1, hq2, hq3, hbt⟩ := hsome a2 ea b2 eb h1 h2
            exact ⟨hcore, ⟨d, hd1, hd2⟩, hm, hq1, hq2, hq3, hbt⟩
          · -- word acceptance
            have ha : key_printer na a (Input.Character c) =
                (match check_word { a with total_chars_typed := a.total_chars_typed + 1 } with
                  | none => none
                  | some a' => update_state na a') := by
              simp only [key_printer, hesc, hcc, hrsz, hbk, hcb, Bool.false_eq_true,
                if_false]
              rw [if_pos hconda, if_neg (by rw [hcw]; exact hem)]
            have hb : key_printer nb b (Input.Character c) =
                (match check_word { b with total_chars_typed := b.total_chars_typed + 1 } with
                  | none => none
                  | some b' => update_state nb b') := by
              simp only [key_printer, hesc, hcc, hrsz, hbk, hcb, Bool.false_eq_true,
                if_false]
              rw [if_pos hcondb, if_neg hem]
            obtain ⟨hiffW, hsomeW⟩ := check_word_sim
              { a with total_chars_typed := a.total_chars_typed + 1 }
              { b with total_chars_typed := b.total_chars_typed + 1 }
              hcw hcs hti htx htk
            cases hwb : check_word { b with total_chars_typed := b.total_chars_typed + 1 } with
            | none =>
              have hwa := hiffW.mpr hwb
              have ha2 : key_printer na a (Input.Character c) = none := by rw [ha, hwa]
              have hb2 : key_printer nb b (Input.Character c) = none := by rw [hb, hwb]
              exact ⟨by rw [ha2, hb2], fun a2 ea b2 eb h1 _ => by
                rw [ha2] at h1; exact absurd h1 (by simp)⟩
            | some b' =>
              cases hwa : check_word { a with total_chars_typed := a.total_chars_typed + 1 } with
              | none =>
                have := hiffW.mp hwa
                rw [hwb] at this
                exact absurd this (by simp)
              | some a' =>
                obtain ⟨w1, w2, w3, w4, w5, w6, w7, w8, w9, w10, w11, w12, w13,
                  w14, w15⟩ := hsomeW a' b' hwa hwb
                have ha2 : key_printer na a (Input.Character c) = update_state na a' := by
                  rw [ha, hwa]
                have hb2 : key_printer nb b (Input.Character c) = update_state nb b' := by
                  rw [hb, hwb]
                obtain ⟨hiff, hsome⟩ := update_state_sim na nb a' b'
                  w1 w2 w3 (by rw [w4, w5]; exact htx) (by rw [w6, w7]; exact htk)
                  (by rw [w8, w9]; exact hlim) (by rw [w12]; exact hmode)
                refine ⟨by rw [ha2, hb2]; exact hiff, fun a2 ea b2 eb h1 h2 => ?_⟩
                rw [ha2] at h1
                rw [hb2] at h2
                obtain ⟨hcore, ⟨d, hd1, hd2⟩, hm, hq1, hq2, hq3, hbt⟩ :=
                  hsome a2 ea b2 eb h1 h2
                exact ⟨hcore, ⟨d, by rw [hd1, w10], by rw [hd2, w11]⟩, hm,
                  by rw [hq1, w13], by rw [hq2, w14], by rw [hq3, w15],
                  by rw [hbt]; exact w5⟩
        · -- any other printable character: append (guarded) and count
          have hconda : ¬(Input.Character c = Input.Character ' ' ∧
              byteLen a.current_word < a.current_word_limit) := by
            rintro ⟨h1, h2⟩
            exact hsp ⟨by injection h1, by rw [← hcw, ← hlim]; exact h2⟩
          have hcondb : ¬(Input.Character c = Input.Character ' ' ∧
              byteLen b.current_word < b.current_word_limit) := by
            rintro ⟨h1, h2⟩
            exact hsp ⟨by injection h1, h2⟩
          have ha : key_printer na a (Input.Character c) = update_state na
              { appendkey a [c] with
                total_chars_typed := (appendkey a [c]).total_chars_typed + 1 } := by
            simp only [key_printer, hesc, hcc, hrsz, hbk, hcb, Bool.false_eq_true,
              if_false, is_valid_initial_key, if_true, get_key_mapping]
            rw [if_neg hconda]
          have hb : key_printer nb b (Input.Character c) = update_state nb
              { appendkey b [c] with
                total_chars_typed := (appendkey b [c]).total_chars_typed + 1 } := by
            simp only [key_printer, hesc, hcc, hrsz, hbk, hcb, Bool.false_eq_true,
              if_false, is_valid_initial_key, if_true, get_key_mapping]
            rw [if_neg hcondb]
          obtain ⟨hk1, hk2⟩ := appendkey_sim a b [c] hcw hcs hlim
          obtain ⟨fA1, fA2, fA3, fA4, fA5, fA6, fA7, fA8, fA9⟩ := appendkey_frame a [c]
          obtain ⟨fB1, fB2, fB3, fB4, fB5, fB6, fB7, fB8, fB9⟩ := appendkey_frame b [c]
          obtain ⟨hiff, hsome⟩ := update_state_sim na nb
            { appendkey a [c] with
              total_chars_typed := (appendkey a [c]).total_chars_typed + 1 }
            { appendkey b [c] with
              total_chars_typed := (appendkey b [c]).total_chars_typed + 1 }
            hk1 hk2 (by rw [fA1, fB1, hti]) (by rw [fA2, fB2, htx])
            (by rw [fA3, fB3, htk]) (by rw [fA4, fB4, hlim])
            (by rw [fB6, hmode])
          refine ⟨by rw [ha, hb]; exact hiff, fun a2 ea b2 eb h1 h2 => ?_⟩
          rw [ha] at h1
          rw [hb] at h2
          obtain ⟨hcore, ⟨d, hd1, hd2⟩, hm, hq1, hq2, hq3, hbt⟩ := hsome a2 ea b2 eb h1 h2
          exact ⟨hcore, ⟨d, by rw [hd1]; rw [fA5], by rw [hd2]; rw [fB5]⟩, hm,
            by rw [hq1]; rw [fB7], by rw [hq2]; rw [fB8], by rw [hq3]; rw [fB9],
            by rw [hbt]; exact fB2⟩

/-- Any non-Escape, non-Resize key processed by `key_printer` corresponds on
core-agreeing states: besides every `Character` this covers `KeyBackspace`
(single-key erase) and the ignored `KeyEnter`/`KeyLeft`/`KeyRight`, which
fall through every branch to the plain state update.  Escape resets the
session and Resize re-wraps against the live window, so both are excluded. -/
theorem key_printer_sim (na nb : ℚ) (a b : App) (k : Input)
    (hke : is_escape k = false) (hkr : is_resize k = false)
    (hcw : a.current_word = b.current_word) (hcs : a.current_string = b.current_string)
    (hti : a.token_index = b.token_index) (htx : a.text = b.text)
    (htk : a.tokens = b.tokens) (hlim : a.current_word_limit = b.current_word_limit)
    (hmode : b.mode = 1) :
    (key_printer na a k = none ↔ key_printer nb b k = none) ∧
    ∀ a2 ea b2 eb, key_printer na a k = some (a2, ea) →
      key_printer nb b k = some (b2, eb) →
      (a2.current_word = b2.current_word ∧ a2.current_string = b2.current_string ∧
       a2.token_index = b2.token_index ∧ a2.text = b2.text ∧ a2.tokens = b2.tokens ∧
       a2.current_word_limit = b2.current_word_limit) ∧
      (∃ d, a2.mistyped_keys = a.mistyped_keys ++ d ∧
            b2.mistyped_keys = b.mistyped_keys ++ d) ∧
      b2.mode = 1 ∧ b2.current_speed_wpm = b.current_speed_wpm ∧
      b2.accuracy = b.accuracy ∧ b2.time_taken = b.time_taken ∧
      b2.text = b.text := by
  cases k with
  | Character c => exact key_printer_sim_char na nb a b c hcw hcs hti htx htk hlim hmode
  | KeyExit => exact absurd hke (by simp [is_escape])
  | KeyResize => exact absurd hkr (by simp [is_resize])
  | KeyBackspace =>
    have hesc : is_escape Input.KeyBackspace = false := by decide
    have hcc : is_ctrl_c Input.KeyBackspace = false := by decide
    have hrsz : is_resize Input.KeyBackspace = false := by decide
    have hbk : is_backspace Input.KeyBackspace = true := by decide
    have ha : key_printer na a Input.KeyBackspace = update_state na (erase_key a) := by
      simp only [key_printer, hesc, hcc, hrsz, hbk, Bool.false_eq_true, if_false,
        if_true]
    have hb : key_printer nb b Input.KeyBackspace = update_state nb (erase_key b) := by
      simp only [key_printer, hesc, hcc, hrsz, hbk, Bool.false_eq_true, if_false,
        if_true]
    obtain ⟨hk1, hk2⟩ := erase_key_sim a b hcw hcs
    obtain ⟨fA1, fA2, fA3, fA4, fA5, fA6, fA7, fA8, fA9⟩ := erase_key_frame a
    obtain ⟨fB1, fB2, fB3, fB4, fB5, fB6, fB7, fB8, fB9⟩ := erase_key_frame b
    obtain ⟨hiff, hsome⟩ := update_state_sim na nb (erase_key a) (erase_key b)
      hk1 hk2 (by rw [fA1, fB1, hti]) (by rw [fA2, fB2, htx]) (by rw [fA3, fB3, htk])
      (by rw [fA4, fB4, hlim]) (by rw [fB6, hmode])
    refine ⟨by rw [ha, hb]; exact hiff, fun a2 ea b2 eb h1 h2 => ?_⟩
    rw [ha] at h1
    rw [hb] at h2
    obtain ⟨hcore, ⟨d, hd1, hd2⟩, hm, hq1, hq2, hq3, hbt⟩ := hsome a2 ea b2 eb h1 h2
    exact ⟨hcore, ⟨d, by rw [hd1, fA5], by rw [hd2, fB5]⟩, hm,
      by rw [hq1, fB7], by rw [hq2, fB8], by rw [hq3, fB9], by rw [hbt, fB2]⟩
  | KeyEnter =>
    have hesc : is_escape Input.KeyEnter = false := by decide
    have hcc : is_ctrl_c Input.KeyEnter = false := by decide
    have hrsz : is_resize Input.KeyEnter = false := by decide
    have hbk : is_backspace Input.KeyEnter = false := by decide
    have hcb : is_ctrl_backspace Input.KeyEnter = false := by decide
    have hvk : is_valid_initial_key Input.KeyEnter = false := by decide
    have hconda : ¬(Input.KeyEnter = Input.Character ' ' ∧
        byteLen a.current_word < a.current_word_limit) := by
      rintro ⟨h, -⟩
      exact absurd h (by simp)
    have hcondb : ¬(Input.KeyEnter = Input.Character ' ' ∧
        byteLen b.current_word < b.current_word_limit) := by
      rintro ⟨h, -⟩
      exact absurd h (by simp)
    have ha : key_printer na a Input.KeyEnter = update_state na a := by
      simp only [key_printer, hesc, hcc, hrsz, hbk, hcb, hvk, Bool.false_eq_true,
        if_false]
      rw [if_neg hconda]
    have hb : key_printer nb b Input.KeyEnter = update_state nb b := by
      simp only [key_printer, hesc, hcc, hrsz, hbk, hcb, hvk, Bool.false_eq_true,
        if_false]
      rw [if_neg hcondb]
    obtain ⟨hiff, hsome⟩ := update_state_sim na nb a b hcw hcs hti htx htk hlim hmode
    refine ⟨by rw [ha, hb]; exact hiff, fun a2 ea b2 eb h1 h2 => ?_⟩
    rw [ha] at h1
    rw [hb] at h2
    exact hsome a2 ea b2 eb h1 h2
  | KeyLeft =>
    have hesc : is_escape Input.KeyLeft = false := by decide
    have hcc : is_ctrl_c Input.KeyLeft = false := by decide
    have hrsz : is_resize Input.KeyLeft = false := by decide
    have hbk : is_backspace Input.KeyLeft = false := by decide
    have hcb : is_ctrl_backspace Input.KeyLeft = false := by decide
    have hvk : is_valid_initial_key Input.KeyLeft = false := by decide
    have hconda : ¬(Input.KeyLeft = Input.Character ' ' ∧
        byteLen a.current_word < a.current_word_limit) := by
      rintro ⟨h, -⟩
      exact absurd h (by simp)
    have hcondb : ¬(Input.KeyLeft = Input.Character ' ' ∧
        byteLen b.current_word < b.current_word_limit) := by
      rintro ⟨h, -⟩
      exact absurd h (by simp)
    have ha : key_printer na a Input.KeyLeft = update_state na a := by
      simp only [key_printer, hesc, hcc, hrsz, hbk, hcb, hvk, Bool.false_eq_true,
        if_false]
      rw [if_neg hconda]
    have hb : key_printer nb b Input.KeyLeft = update_state nb b := by
      simp only [key_printer, hesc, hcc, hrsz, hbk, hcb, hvk, Bool.false_eq_true,
        if_false]
      rw [if_neg hcondb]
    obtain ⟨hiff, hsome⟩ := update_state_sim na nb a b hcw hcs hti htx htk hlim hmode
    refine ⟨by rw [ha, hb]; exact hiff, fun a2 ea b2 eb h1 h2 => ?_⟩
    rw [ha] at h1
    rw [hb] at h2
    exact hsome a2 ea b2 eb h1 h2
  | KeyRight =>
    have hesc : is_escape Input.KeyRight = false := by decide
    have hcc : is_ctrl_c Input.KeyRight = false := by decide
    have hrsz : is_resize Input.KeyRight = false := by decide
    have hbk : is_backspace Input.KeyRight = false := by decide
    have hcb : is_ctrl_backspace Input.KeyRight = false := by decide
    have hvk : is_valid_initial_key Input.KeyRight = false := by decide
    have hconda : ¬(Input.KeyRight = Input.Character ' ' ∧
        byteLen a.current_word < a.current_word_limit) := by
      rintro ⟨h, -⟩
      exact absurd h (by simp)
    have hcondb : ¬(Input.KeyRight = Input.Character ' ' ∧
        byteLen b.current_word < b.current_word_limit) := by
      rintro ⟨h, -⟩
      exact absurd h (by simp)
    have ha : key_printer na a Input.KeyRight = update_state na a := by
      simp only [key_printer, hesc, hcc, hrsz, hbk, hcb, hvk, Bool.false_eq_true,
        if_false]
      rw [if_neg hconda]
    have hb : key_printer nb b Input.KeyRight = update_state nb b := by
      simp only [key_printer, hesc, hcc, hrsz, hbk, hcb, hvk, Bool.false_eq_true,
        if_false]
      rw [if_neg hcondb]
    obtain ⟨hiff, hsome⟩ := update_state_sim na nb a b hcw hcs hti htx htk hlim hmode
    refine ⟨by rw [ha, hb]; exact hiff, fun a2 ea b2 eb h1 h2 => ?_⟩
    rw [ha] at h1
    rw [hb] at h2
    exact hsome a2 ea b2 eb h1 h2

/-- A key from a flag-set state — or the flag-setting first valid key — is
processed by typing mode as `key_printer` on a state that differs only in the
timer fields and the appended key-log entry: the recording never touches the
typing core or the mistyped positions, and the flag is set when `key_printer`
takes over.  (This captures exactly the events that get recorded: before the
first valid keystroke non-`Character` keys are dropped unrecorded.) -/
theorem typing_mode_step (now : ℚ) (a : App) (k : Input)
    (hkr : is_resize k = false)
    (hcase : is_valid_initial_key k = true ∨ a.first_key_pressed = true) :
    ∃ a1 : App,
      typing_mode now a k = key_printer now a1 k ∧
      a1.current_word = a.current_word ∧ a1.current_string = a.current_string ∧
      a1.token_index = a.token_index ∧ a1.text = a.text ∧ a1.tokens = a.tokens ∧
      a1.current_word_limit = a.current_word_limit ∧
      a1.mistyped_keys = a.mistyped_keys ∧ a1.first_key_pressed = true := by
  by_cases hf : a.first_key_pressed = false
  · have hvk : is_valid_initial_key k = true := by
      cases hcase with
      | inl h => exact h
      | inr h => rw [hf] at h; exact absurd h (by simp)
    refine ⟨{ a with
      start_time := now,
      first_key_pressed := true,
      key_strokes := a.key_strokes ++ [(now, k)] }, ?_,
      rfl, rfl, rfl, rfl, rfl, rfl, rfl, rfl⟩
    simp [typing_mode, hf, hvk, hkr]
  · have hft : a.first_key_pressed = true := by
      revert hf
      cases a.first_key_pressed <;> simp
    refine ⟨{ a with key_strokes := a.key_strokes ++ [(now, k)] }, ?_,
      rfl, rfl, rfl, rfl, rfl, rfl, rfl, hft⟩
    simp [typing_mode, hft, hkr]

/-- On an empty typed string over a non-empty wrapped text, the state update
is a no-op: the diff index is 0, so no mistyped position is recorded and
completion cannot trigger. -/
theorem update_state_empty_cs (now : ℚ) (b : App) (hcs : b.current_string = [])
    (htext0 : byteLen b.text ≠ 0) :
    update_state now b = some (b, false) := by
  have h0 : byteLen b.current_string = 0 := by rw [hcs]; rfl
  have hidx : first_index_at_which_strings_differ b.current_string b.text = 0 := by
    have := first_index_le_min b.current_string b.text
    omega
  simp only [update_state]
  rw [if_neg (by omega : ¬byteLen b.text < byteLen b.current_string)]
  rw [if_neg (show ¬first_index_at_which_strings_differ b.current_string b.text =
      byteLen b.text by rw [hidx]; omega)]
  rw [if_neg (show ¬(first_index_at_which_strings_differ b.current_string b.text <
      byteLen b.current_string ∧ byteLen b.current_string ≤ byteLen b.text) by
    rw [hidx, h0]; omega)]

/-- With both typing buffers empty, a non-`Character` key other than Escape
and Resize leaves `key_printer` a no-op emitting nothing: `KeyBackspace` finds
nothing to erase and `KeyEnter`/`KeyLeft`/`KeyRight` fall through to the plain
state update, which records nothing on an empty typed string.  These are
exactly the states in which the live loop drops such keys (before the first
valid keystroke, or — vacuously for a recorded log — after `test_end`). -/
theorem key_printer_nonchar_noop (now : ℚ) (b : App) (k : Input)
    (hke : is_escape k = false) (hkr : is_resize k = false)
    (hnv : is_valid_initial_key k = false)
    (hcw : b.current_word = []) (hcs : b.current_string = [])
    (htext0 : byteLen b.text ≠ 0) :
    key_printer now b k = some (b, false) := by
  cases k with
  | Character c => exact absurd hnv (by simp [is_valid_initial_key])
  | KeyExit => exact absurd hke (by simp [is_escape])
  | KeyResize => exact absurd hkr (by simp [is_resize])
  | KeyBackspace =>
    have hesc : is_escape Input.KeyBackspace = false := by decide
    have hcc : is_ctrl_c Input.KeyBackspace = false := by decide
    have hrsz : is_resize Input.KeyBackspace = false := by decide
    have hbk : is_backspace Input.KeyBackspace = true := by decide
    have ha : key_printer now b Input.KeyBackspace = update_state now (erase_key b) := by
      simp only [key_printer, hesc, hcc, hrsz, hbk, Bool.false_eq_true, if_false,
        if_true]
    rw [ha, erase_key, if_pos hcw]
    exact update_state_empty_cs now b hcs htext0
  | KeyEnter =>
    have hesc : is_escape Input.KeyEnter = false := by decide
    have hcc : is_ctrl_c Input.KeyEnter = false := by decide
    have hrsz : is_resize Input.KeyEnter = false := by decide
    have hbk : is_backspace Input.KeyEnter = false := by decide
    have hcb : is_ctrl_backspace Input.KeyEnter = false := by decide
    have hvk : is_valid_initial_key Input.KeyEnter = false := by decide
    have hcond : ¬(Input.KeyEnter = Input.Character ' ' ∧
        byteLen b.current_word < b.current_word_limit) := by
      rintro ⟨h, -⟩
      exact absurd h (by simp)
    have ha : key_printer now b Input.KeyEnter = update_state now b := by
      simp only [key_printer, hesc, hcc, hrsz, hbk, hcb, hvk, Bool.false_eq_true,
        if_false]
      rw [if_neg hcond]
    rw [ha]
    exact update_state_empty_cs now b hcs htext0
  | KeyLeft =>
    have hesc : is_escape Input.KeyLeft = false := by decide
    have hcc : is_ctrl_c Input.KeyLeft = false := by decide
    have hrsz : is_resize Input.KeyLeft = false := by decide
    have hbk : is_backspace Input.KeyLeft = false := by decide
    have hcb : is_ctrl_backspace Input.KeyLeft = false := by decide
    have hvk : is_valid_initial_key Input.KeyLeft = false := by decide
    have hcond : ¬(Input.KeyLeft = Input.Character ' ' ∧
        byteLen b.current_word < b.current_word_limit) := by
      rintro ⟨h, -⟩
      exact absurd h (by simp)
    have ha : key_printer now b Input.KeyLeft = update_state now b := by
      simp only [key_printer, hesc, hcc, hrsz, hbk, hcb, hvk, Bool.false_eq_true,
        if_false]
      rw [if_neg hcond]
    rw [ha]
    exact update_state_empty_cs now b hcs htext0
  | KeyRight =>
    have hesc : is_escape Input.KeyRight = false := by decide
    have hcc : is_ctrl_c Input.KeyRight = false := by decide
    have hrsz : is_resize Input.KeyRight = false := by decide
    have hbk : is_backspace Input.KeyRight = false := by decide
    have hcb : is_ctrl_backspace Input.KeyRight = false := by decide
    have hvk : is_valid_initial_key Input.KeyRight = false := by decide
    have hcond : ¬(Input.KeyRight = Input.Character ' ' ∧
        byteLen b.current_word < b.current_word_limit) := by
      rintro ⟨h, -⟩
      exact absurd h (by simp)
    have ha : key_printer now b Input.KeyRight = update_state now b := by
      simp only [key_printer, hesc, hcc, hrsz, hbk, hcb, hvk, Bool.false_eq_true,
        if_false]
      rw [if_neg hcond]
    rw [ha]
    exact update_state_empty_cs now b hcs htext0

theorem erase_key_first_key (x : App) :
    (erase_key x).first_key_pressed = x.first_key_pressed := by
  rw [erase_key]; split_ifs <;> rfl

theorem appendkey_first_key (x : App) (key : List Char) :
    (appendkey x key).first_key_pressed = x.first_key_pressed := by
  rw [appendkey]; split_ifs <;> rfl

theorem erase_word_first_key (x x' : App) (h : erase_word x = some x') :
    x'.first_key_pressed = x.first_key_pressed := by
  by_cases h1 : x.current_word = []
  · rw [erase_word, if_pos h1, Option.some.injEq] at h
    rw [← h]
  · rw [erase_word, if_neg h1] at h
    cases hr : rfindSpaceByte x.current_word with
    | none => rw [hr] at h; exact absurd h (by simp)
    | some idx =>
      rw [hr] at h
      dsimp only at h
      split_ifs at h <;> (rw [Option.some.injEq] at h; rw [← h])

theorem check_word_first_key (x x' : App) (h : check_word x = some x') :
    x'.first_key_pressed = x.first_key_pressed := by
  simp only [check_word] at h
  cases hg : get_space_count_after_ith_word (byteLen x.current_string) x.text with
  | none => rw [hg] at h; exact absurd h (by simp)
  | some spc =>
    rw [hg] at h
    dsimp only at h
    cases ht : x.tokens.get? x.token_index with
    | none => rw [ht] at h; exact absurd h (by simp)
    | some tok =>
      rw [ht] at h
      dsimp only at h
      split_ifs at h <;> (rw [Option.some.injEq] at h; rw [← h])

/-- A successful state update either keeps the first-keystroke flag or has
just run `test_end`, which empties both typing buffers: every state a live
run passes through between recorded events satisfies this disjunction. -/
theorem update_state_first_key (now : ℚ) (x : App) (x2 : App) (e : Bool)
    (h : update_state now x = some (x2, e)) :
    x2.first_key_pressed = x.first_key_pressed ∨
      (x2.current_word = [] ∧ x2.current_string = []) := by
  simp only [update_state] at h
  split_ifs at h with g1 g2 g3 g4
  · rw [Option.some.injEq] at h
    obtain ⟨hA1, hA2, -, -, -, -, -⟩ := test_end_core now
      { x with mistyped_keys := x.mistyped_keys ++ [byteLen x.current_string - 1] }
    rw [h] at hA1 hA2
    exact Or.inr ⟨hA1, hA2⟩
  · rw [Option.some.injEq] at h
    obtain ⟨hA1, hA2, -, -, -, -, -⟩ := test_end_core now x
    rw [h] at hA1 hA2
    exact Or.inr ⟨hA1, hA2⟩
  · rw [Option.some.injEq, Prod.mk.injEq] at h
    exact Or.inl (by rw [← h.1])
  · rw [Option.some.injEq, Prod.mk.injEq] at h
    exact Or.inl (by rw [← h.1])

/-- From a flag-set state, a non-Escape key processed by `key_printer` yields
a state that either still has the flag set or whose `test_end` has just
cleared it together with both typing buffers. -/
theorem key_printer_first_key (now : ℚ) (a a2 : App) (e : Bool) (k : Input)
    (hesc : ¬is_escape k = true) (hflag : a.first_key_pressed = true)
    (h : key_printer now a k = some (a2, e)) :
    a2.first_key_pressed = true ∨ (a2.current_word = [] ∧ a2.current_string = []) := by
  simp only [key_printer] at h
  rw [if_neg hesc] at h
  split_ifs at h with g1 g2 g3 g4 g5 g6 g7
  · cases update_state_first_key now (erase_key a) a2 e h with
    | inl hq => exact Or.inl (by rw [hq, erase_key_first_key]; exact hflag)
    | inr hq => exact Or.inr hq
  · cases hw : erase_word a with
    | none => rw [hw] at h; exact absurd h (by simp)
    | some a' =>
      rw [hw] at h
      dsimp only at h
      cases update_state_first_key now a' a2 e h with
      | inl hq =>
        exact Or.inl (by rw [hq, erase_word_first_key a a' hw]; exact hflag)
      | inr hq => exact Or.inr hq
  · cases update_state_first_key now
      { a with total_chars_typed := a.total_chars_typed + 1 } a2 e h with
    | inl hq => exact Or.inl (by rw [hq]; exact hflag)
    | inr hq => exact Or.inr hq
  · cases hw : check_word { a with total_chars_typed := a.total_chars_typed + 1 } with
    | none => rw [hw] at h; exact absurd h (by simp)
    | some a' =>
      rw [hw] at h
      dsimp only at h
      cases update_state_first_key now a' a2 e h with
      | inl hq =>
        exact Or.inl (by rw [hq, check_word_first_key _ a' hw]; exact hflag)
      | inr hq => exact Or.inr hq
  · cases update_state_first_key now _ a2 e h with
    | inl hq => exact Or.inl (by rw [hq]; simp [appendkey_first_key, hflag])
    | inr hq => exact Or.inr hq
  · cases update_state_first_key now a a2 e h with
    | inl hq => exact Or.inl (by rw [hq]; exact hflag)
    | inr hq => exact Or.inr hq

/-- Two-word-free session over the one-token text `"ab"` (word limit
`2 + 5`), as `App::from_prepared_text` builds it. -/
def c5fresh : App :=
  { text := "ab".data
    text_id := "1".data
    tokens := ["ab".data]
    text_backup := "ab".data
    current_word := []
    current_string := []
    first_key_pressed := false
    key_strokes := []
    mistyped_keys := []
    start_time := 0
    end_time := 0
    token_index := 0
    mode := 0
    window_height := 40
    window_width := 80
    number_of_lines_to_print_text := 5
    current_word_limit := 7
    test_complete := false
    current_speed_wpm := 0
    accuracy := 0
    time_taken := 0
    total_chars_typed := 0 }

/-- A completed live run over `"ab"`: one mistyped key `x`, erased with the
(recorded) `KeyBackspace`, then the correct `a`, `b`. -/
def c5events : List (ℚ × Input) :=
  [(0, Input.Character 'x'), (0, Input.KeyBackspace),
   (0, Input.Character 'a'), (0, Input.Character 'b')]

/-- The state `run_typing c5events c5fresh` finishes in: mode 1, completion
flag set, cached metrics, the delta-encoded key log (all deltas 0 here) and
the one recorded mistyped position 0. -/
def c5finished : App :=
  { c5fresh with
    key_strokes := c5events
    mistyped_keys := [0]
    mode := 1
    test_complete := true
    accuracy := 200 / 3
    total_chars_typed := 3 }

section

/- The rational-arithmetic primitives are `@[irreducible]` upstream (they are
meant to run natively); the concrete evaluations below go through the kernel,
so restore their definitional unfolding locally. -/
attribute [local semireducible] Rat.add Rat.sub Rat.mul Rat.inv

/-- C5 (counterexample): the code replays the recorded log against the
finished session state, not a fresh one — its `mistyped_keys` still holds the
live run's entries, so the replayed transitions append the same positions
*again*: the stored list after replay is `[0, 0]`, not the live run's `[0]`.
The claim's "mistyped_positions identical to those of the original live run"
fails for the recorded collection (it holds only up to the induced set). -/
theorem replay_duplicates_recorded_mistyped :
    run_typing c5events c5fresh = some c5finished ∧
    replay c5finished.key_strokes c5finished =
      some ({ c5finished with mistyped_keys := [0, 0], total_chars_typed := 6 }, 0) ∧
    ({ c5finished with mistyped_keys := [0, 0], total_chars_typed := 6 } : App).mistyped_keys ≠
      c5finished.mistyped_keys :=
  ⟨by decide, by decide, by decide⟩

/-- C5 (amended): replay determinism for resize-free logs.  Feeding the same
sequence of non-Escape, non-Resize events — every kind a finalized log can
record: `Character`s, `KeyBackspace`, `KeyEnter` and the arrow keys — with
arbitrary, unrelated wall-clock instants on each side, through the live
typing transition from one state and through the replay transition
(`key_printer` re-drive) from any state agreeing on the typing core, the two
runs fail together; on success the final `current_word`, `current_string` and
`token_index` coincide, the two runs append the **same** sequence of mistyped
positions to their respective starting `mistyped_keys` (replayed from the
post-completion state, the recorded positions are reproduced — appended after
the live run's own entries, per the counterexample), and the replay side
(mode 1) keeps the cached `wpm`, `accuracy` and `time_taken` of the finished
live run — replay never recomputes them, so the sleep timing cannot change
them.  The live start state has the timer flag set or empty typing buffers (a
fresh session, or any state from the first recorded keystroke on).  Escape
cannot occur in a finalized log — `reset_test` clears the log in the same
call — and a replayed Resize re-wraps the text against the window as it is at
replay time, not as it was during the run, so resize events are excluded. -/
theorem replay_reproduces_live_run :
    ∀ (ks1 ks2 : List (ℚ × Input)) (a b : App),
      ks1.map Prod.snd = ks2.map Prod.snd →
      (∀ x ∈ ks1, is_escape x.2 = false ∧ is_resize x.2 = false) →
      (a.first_key_pressed = true ∨ (a.current_word = [] ∧ a.current_string = [])) →
      byteLen b.text ≠ 0 →
      a.current_word = b.current_word → a.current_string = b.current_string →
      a.token_index = b.token_index → a.text = b.text → a.tokens = b.tokens →
      a.current_word_limit = b.current_word_limit → b.mode = 1 →
      (run_typing ks1 a = none ↔ replay ks2 b = none) ∧
      ∀ a' b' n, run_typing ks1 a = some a' → replay ks2 b = some (b', n) →
        a'.current_word = b'.current_word ∧ a'.current_string = b'.current_string ∧
        a'.token_index = b'.token_index ∧
        (∃ d, a'.mistyped_keys = a.mistyped_keys ++ d ∧
              b'.mistyped_keys = b.mistyped_keys ++ d) ∧
        b'.mode = 1 ∧ b'.current_speed_wpm = b.current_speed_wpm ∧
        b'.accuracy = b.accuracy ∧ b'.time_taken = b.time_taken := by
  intro ks1
  induction ks1 with
  | nil =>
    intro ks2 a b hmap hkeys hfl htext0 hcw hcs hti htx htk hlim hmode
    have hks2 : ks2 = [] := by
      cases ks2 with
      | nil => rfl
      | cons y ys => simp at hmap
    subst hks2
    constructor
    · simp [run_typing, replay]
    · intro a' b' n h1 h2
      simp only [run_typing, Option.some.injEq] at h1
      simp only [replay, Option.some.injEq, Prod.mk.injEq] at h2
      rw [← h1, ← h2.1]
      exact ⟨hcw, hcs, hti, ⟨[], by simp, by simp⟩, hmode, rfl, rfl, rfl⟩
  | cons x rest ih =>
    intro ks2 a b hmap hkeys hfl htext0 hcw hcs hti htx htk hlim hmode
    cases ks2 with
    | nil => simp at hmap
    | cons y rest2 =>
      obtain ⟨t1, k1⟩ := x
      obtain ⟨t2, k2⟩ := y
      simp only [List.map_cons, List.cons.injEq] at hmap
      obtain ⟨hkk, hmaprest⟩ := hmap
      obtain ⟨hke, hkr⟩ := hkeys (t1, k1) (List.mem_cons_self _ _)
      dsimp only at hke hkr
      subst hkk
      have hkeysrest : ∀ z ∈ rest, is_escape z.2 = false ∧ is_resize z.2 = false :=
        fun z hz => hkeys z (List.mem_cons_of_mem _ hz)
      by_cases hproc : is_valid_initial_key k1 = true ∨ a.first_key_pressed = true
      · -- the live loop records the key and feeds it through `key_printer`
        obtain ⟨a1, hstep, p1, p2, p3, p4, p5, p6, p7, p8⟩ :=
          typing_mode_step t1 a k1 hkr hproc
        obtain ⟨hiffK, hsomeK⟩ := key_printer_sim t1 t2 a1 b k1 hke hkr
          (p1.trans hcw) (p2.trans hcs) (p3.trans hti) (p4.trans htx) (p5.trans htk)
          (p6.trans hlim) hmode
        simp only [run_typing, replay, hstep]
        cases hkb : key_printer t2 b k1 with
        | none =>
          have hka : key_printer t1 a1 k1 = none := hiffK.mpr hkb
          rw [hka]
          exact ⟨by simp, fun a' b' n h1 _ => absurd h1 (by simp)⟩
        | some rb =>
          obtain ⟨b2, eb⟩ := rb
          cases hka : key_printer t1 a1 k1 with
          | none =>
            have := hiffK.mp hka
            rw [hkb] at this
            exact absurd this (by simp)
          | some ra =>
            obtain ⟨a2, ea⟩ := ra
            obtain ⟨⟨q1, q2, q3, q4, q5, q6⟩, ⟨d, hd1, hd2⟩, hm, hw1, hw2, hw3, hbt⟩ :=
              hsomeK a2 ea b2 eb hka hkb
            have hfl2 : a2.first_key_pressed = true ∨
                (a2.current_word = [] ∧ a2.current_string = []) :=
              key_printer_first_key t1 a1 a2 ea k1 (by rw [hke]; simp) p8 hka
            have htext2 : byteLen b2.text ≠ 0 := by rw [hbt]; exact htext0
            obtain ⟨hiffR, hsomeR⟩ := ih rest2 a2 b2 hmaprest hkeysrest hfl2 htext2
              q1 q2 q3 q4 q5 q6 hm
            dsimp only
            constructor
            · constructor
              · intro h1
                have h2 := hiffR.mp h1
                rw [h2]
              · intro h2
                cases hrr : replay rest2 b2 with
                | none => exact hiffR.mpr hrr
                | some s =>
                  rw [hrr] at h2
                  obtain ⟨s1, s2⟩ := s
                  simp at h2
            · intro a' b' n h1 h2
              cases hrr : replay rest2 b2 with
              | none => rw [hrr] at h2; simp at h2
              | some s =>
                obtain ⟨b3, n3⟩ := s
                rw [hrr] at h2
                dsimp only at h2
                rw [Option.some.injEq, Prod.mk.injEq] at h2
                obtain ⟨hb3, -⟩ := h2
                obtain ⟨r1, r2, r3, ⟨d2, hdd1, hdd2⟩, rm, rq1, rq2, rq3⟩ :=
                  hsomeR a' b3 n3 h1 hrr
                subst hb3
                refine ⟨r1, r2, r3, ⟨d ++ d2, ?_, ?_⟩, rm,
                  by rw [rq1, hw1], by rw [rq2, hw2], by rw [rq3, hw3]⟩
                · rw [hdd1, hd1, p7, List.append_assoc]
                · rw [hdd2, hd2, List.append_assoc]
      · -- before the first valid keystroke the live loop drops the key
        -- unrecorded; on the agreeing (hence empty-buffer) replay state the
        -- same key is a recorded no-op
        rw [not_or] at hproc
        obtain ⟨hnv0, hnf0⟩ := hproc
        have hnv : is_valid_initial_key k1 = false := by
          revert hnv0
          cases is_valid_initial_key k1 <;> simp
        have hnf : a.first_key_pressed = false := by
          revert hnf0
          cases a.first_key_pressed <;> simp
        have hbuf : a.current_word = [] ∧ a.current_string = [] := by
          cases hfl with
          | inl h => rw [hnf] at h; exact absurd h (by simp)
          | inr h => exact h
        have hstepa : typing_mode t1 a k1 = some (a, false) := by
          simp [typing_mode, hnf, hnv, hkr]
        have hstepb : key_printer t2 b k1 = some (b, false) :=
          key_printer_nonchar_noop t2 b k1 hke hkr hnv
            (by rw [← hcw]; exact hbuf.1) (by rw [← hcs]; exact hbuf.2) htext0
        simp only [run_typing, replay, hstepa, hstepb]
        obtain ⟨hiffR, hsomeR⟩ := ih rest2 a b hmaprest hkeysrest hfl htext0
          hcw hcs hti htx htk hlim hmode
        constructor
        · constructor
          · intro h1
            have h2 := hiffR.mp h1
            rw [h2]
          · intro h2
            cases hrr : replay rest2 b with
            | none => exact hiffR.mpr hrr
            | some s =>
              rw [hrr] at h2
              obtain ⟨s1, s2⟩ := s
              simp at h2
        · intro a' b' n h1 h2
          cases hrr : replay rest2 b with
          | none => rw [hrr] at h2; simp at h2
          | some s =>
            obtain ⟨b3, n3⟩ := s
            rw [hrr] at h2
            dsimp only at h2
            rw [Option.some.injEq, Prod.mk.injEq] at h2
            obtain ⟨hb3, -⟩ := h2
            obtain ⟨r1, r2, r3, ⟨d2, hdd1, hdd2⟩, rm, rq1, rq2, rq3⟩ :=
              hsomeR a' b3 n3 h1 hrr
            subst hb3
            exact ⟨r1, r2, r3, ⟨d2, hdd1, hdd2⟩, rm, rq1, rq2, rq3⟩

/-- The recorded log re-fed at different wall-clock instants (the sleeps land
wherever they land). -/
def c5replayLog : List (ℚ × Input) :=
  [(7, Input.Character 'x'), (7, Input.KeyBackspace),
   (7, Input.Character 'a'), (7, Input.Character 'b')]

/-- The state the replay of `c5replayLog` from `c5finished` finishes in: the
typing core is back to empty, the cached metrics are untouched, the mistyped
position was appended again, and the mode-1 `test_end` at the completing key
re-seeds the clock fields with the replay-time instant. -/
def c5replayed : App :=
  { c5finished with
    mistyped_keys := [0, 0]
    total_chars_typed := 6
    start_time := 7
    end_time := 7 }

/-- Witness for C5: the determinism conclusion instantiated on the concrete
completed run over `"ab"` — a log holding a mistyped character, a recorded
`KeyBackspace` and the two correct keys — fed live at instants 0 from the
fresh session and replayed at instants 7 from the finished state: the final
cores agree, the same one-element sequence of mistyped positions is appended
on both sides, and the cached metrics survive the replay. -/
theorem replay_reproduces_live_run_witness :
    c5finished.current_word = c5replayed.current_word ∧
    c5finished.current_string = c5replayed.current_string ∧
    c5finished.token_index = c5replayed.token_index ∧
    (∃ d, c5finished.mistyped_keys = c5fresh.mistyped_keys ++ d ∧
          c5replayed.mistyped_keys = c5finished.mistyped_keys ++ d) ∧
    c5replayed.mode = 1 ∧ c5replayed.current_speed_wpm = c5finished.current_speed_wpm ∧
    c5replayed.accuracy = c5finished.accuracy ∧
    c5replayed.time_taken = c5finished.time_taken :=
  (replay_reproduces_live_run c5events c5replayLog c5fresh c5finished
    (by decide) (by decide) (by decide) (by decide)
    rfl rfl rfl rfl rfl rfl rfl).2
    c5finished c5replayed 0 (by decide) (by decide)

end
